import Mathlib

/-!
Verification of the rich-text core in `junction/formatting.py`.

The shallow embedding models:
  * `Format` markers and `StringWithFormatting` values as the inductive `Val`
    (`Val.str` a plain-text run, `Val.fmt` a formatting marker,
    `Val.swf` a `StringWithFormatting` with its `_content` tuple);
    `_content` elements can themselves be `StringWithFormatting` objects
    because `__add__` can nest them, so `Val.swf` takes a `List Val`.
  * Python `+` dispatch between `str`, `Format` and `StringWithFormatting`
    as `pyAdd` (`none` models a raised exception, e.g. `IndexError` on an
    empty `_content`).
  * `str()` / `len()` as `pyStr` / `pyLen` (`none` models the `TypeError`
    that `''.join` raises when a `_content` element is a nested
    `StringWithFormatting`).
  * `StringWithFormatting._get_slice` as `getSlice` over the character
    stream produced by `__iter__` / `_enumerate_chars`.
  * `TextWrapper` (`_chunk`, `_lstrip`/`_rstrip`/`_do_strip`, `wrap`) as
    `chunkF`, `lstripChunks`/`rstripChunks` and the fuelled `wrapLoop`;
    `some .exn` models a raised exception (e.g. the `AttributeError` from
    calling `.strip()` on a `StringWithFormatting` chunk), `none` models
    a loop that has not finished within the given fuel.
-/

set_option maxRecDepth 8000

/-- A Python value that can appear in a `StringWithFormatting._content`
tuple or be handed to `+` / `wrap`: a plain string, a `Format` marker
(identified by its `terminal_attribute`), or a `StringWithFormatting`. -/
inductive Val : Type where
  | str : List Char → Val
  | fmt : String → Val
  | swf : List Val → Val

/-- One element of the character stream produced by
`StringWithFormatting.__iter__`: a single visible character, or a
`Format` marker (whose own `__iter__` yields itself). -/
inductive Tok : Type where
  | ch : Char → Tok
  | mark : String → Tok
deriving DecidableEq

mutual

/-- `StringWithFormatting.__iter__` (also what iterating a plain `str` or a
bare `Format` yields): the flattened stream of visible characters and
markers. -/
def chars : Val → List Tok
  | .str s => s.map Tok.ch
  | .fmt a => [Tok.mark a]
  | .swf l => charsL l

/-- Character stream of a `_content` list (the concatenation of the
streams of its elements). -/
def charsL : List Val → List Tok
  | [] => []
  | v :: rest => chars v ++ charsL rest

end

/-- Whether a token is a visible character. -/
def isCh : Tok → Bool
  | .ch _ => true
  | .mark _ => false

/-- Number of visible characters in a token stream. -/
def cnt (toks : List Tok) : Nat := (toks.filter isCh).length

/-- Visible length of a value: the number of visible characters in its
character stream.  (`len` as the code intends it; `pyLen` below is the
literal `__len__`, which can raise.) -/
def vlen (v : Val) : Nat := cnt (chars v)

/-- `str()` of a value: for a `StringWithFormatting` this is
`''.join(s for s in self._content if not isinstance(s, Format))`, which
raises `TypeError` (modelled as `none`) when a non-`Format` element is
not a `str` (a nested `StringWithFormatting`). -/
def strOfContent : List Val → Option (List Char)
  | [] => some []
  | .fmt _ :: rest => strOfContent rest
  | .str s :: rest => (strOfContent rest).map (s ++ ·)
  | .swf _ :: _ => none

/-- Python `str(v)` for the three value kinds. -/
def pyStr : Val → Option (List Char)
  | .str s => some s
  | .fmt _ => some []
  | .swf l => strOfContent l

/-- Python `len(v)`: `Format.__len__` is 0, `str` length, and
`StringWithFormatting.__len__` is `len(str(self))` (raising when `str`
does). -/
def pyLen (v : Val) : Option Nat := (pyStr v).map List.length

/-- Whether a `_content` element is a `Format` (the `isinstance(x, Format)`
test). -/
def isFmt : Val → Bool
  | .fmt _ => true
  | _ => false

/-- `isinstance(content[-1], Format)` for a `_content` list. -/
def lastIsFmt (l : List Val) : Bool :=
  match l.getLast? with
  | some (.fmt _) => true
  | _ => false

mutual

/-- Structural size of a value (an executable fuel measure for the
recursion in `+`). -/
def valSize : Val → Nat
  | .str _ => 1
  | .fmt _ => 1
  | .swf l => 1 + valSizeL l

/-- Structural size of a `_content` list. -/
def valSizeL : List Val → Nat
  | [] => 1
  | v :: rest => 1 + valSize v + valSizeL rest

end

mutual

/-- Python `x + y` over our value universe, following the dispatch of
`str.__add__`, `Format.__add__`/`__radd__` and
`StringWithFormatting.__add__`/`__radd__` in the source, with an explicit
fuel counter so that the definition is structurally recursive and
kernel-computable.  The outer `Option` is the fuel: `none` means the fuel
ran out (`pyAddF_fuel_sufficient` below shows the size-based fuel used by
`pyAdd` never does).  The inner `Option Val` is the Python outcome:
`none` models a raised exception (`IndexError` from indexing an empty
`_content`).  Note the faithful reproduction of the `__add__` condition
that tests `other._content[-1]` (not `other._content[0]`) before fusing
the boundary elements, which can produce a nested `StringWithFormatting`
element. -/
def pyAddF : Nat → Val → Val → Option (Option Val)
  | 0, _, _ => none
  | _ + 1, .str a, .str b => some (some (.str (a ++ b)))
  | _ + 1, .str a, .fmt b => some (some (.swf [.str a, .fmt b]))
  | _ + 1, .str _, .swf [] => some none
  | n + 1, .str a, .swf (c :: rest) =>
    if isFmt c then some (some (.swf (.str a :: c :: rest)))
    else (pyAddF n (.str a) c).map fun r => r.map fun m => .swf (m :: rest)
  | _ + 1, .fmt a, .str b => some (some (.swf [.fmt a, .str b]))
  | _ + 1, .fmt a, .fmt b => some (some (.swf [.fmt a, .fmt b]))
  | _ + 1, .fmt a, .swf l => some (some (.swf (.fmt a :: l)))
  | _ + 1, .swf l, .fmt b => some (some (.swf (l ++ [.fmt b])))
  | _ + 1, .swf [], .str _ => some none
  | n + 1, .swf (c :: l), .str b =>
    if lastIsFmt (c :: l) then some (some (.swf (c :: l ++ [.str b])))
    else (mergeLastF n (c :: l) (.str b)).map fun r => r.map Val.swf
  | _ + 1, .swf [], .swf _ => some none
  | _ + 1, .swf (_ :: _), .swf [] => some none
  | n + 1, .swf (c :: l), .swf (d :: m) =>
    if lastIsFmt (c :: l) || lastIsFmt (d :: m) then
      some (some (.swf ((c :: l) ++ (d :: m))))
    else
      (mergeLastF n (c :: l) d).map fun r => r.map fun l' => .swf (l' ++ m)

/-- Replace the last element `e` of a nonempty `_content` list by `e + v`
(the string-fusing path of `StringWithFormatting.__add__`), with the same
fuel discipline. -/
def mergeLastF : Nat → List Val → Val → Option (Option (List Val))
  | 0, _, _ => none
  | _ + 1, [], _ => some none
  | n + 1, [c], v => (pyAddF n c v).map fun r => r.map fun m => [m]
  | n + 1, c :: c' :: rest, v =>
    (mergeLastF n (c' :: rest) v).map fun r => r.map (c :: ·)

end

/-- Python `x + y`: run the fuelled dispatch with enough fuel (the
combined structural size strictly exceeds the recursion depth, as
`pyAddF_fuel_sufficient` proves). -/
def pyAdd (a b : Val) : Option Val :=
  (pyAddF (valSize a + valSize b) a b).getD none

/-- The fuelled string-fusing helper, with enough fuel. -/
def mergeLast (l : List Val) (v : Val) : Option (List Val) :=
  (mergeLastF (valSizeL l + valSize v) l v).getD none

/-- `if string: result.append(string)` — the pending run, flushed only
when nonempty. -/
def flushStr (s : List Char) : List Val :=
  if s = [] then [] else [Val.str s]

/-- The loop of `StringWithFormatting._get_slice`: walk the enumerated
character stream carrying the cumulative visible count `i`, the `result`
list, the pending `string` run and the `first_format` list `ff`.  A
visible character in `(start, stop]` extends the pending run; a marker in
range flushes the run and lands in `result`; a marker out of range is
collected into `first_format`.  After each token, if the count equals
`stop`, prepend `first_format`, flush the run and break.  At natural end
of the stream return `result` as is (dropping the pending run and
`first_format`, as the source does). -/
def sliceLoop (start stop : Int) : List Tok → Int → List Val → List Char →
    List Val → List Val
  | [], _, result, _, _ => result
  | .ch c :: rest, i, result, string, ff =>
    if i + 1 = stop then
      ff ++ result ++
        flushStr (if start < i + 1 ∧ i + 1 ≤ stop then string ++ [c] else string)
    else
      sliceLoop start stop rest (i + 1) result
        (if start < i + 1 ∧ i + 1 ≤ stop then string ++ [c] else string) ff
  | .mark a :: rest, i, result, string, ff =>
    if start < i ∧ i ≤ stop then
      if i = stop then ff ++ (result ++ flushStr string ++ [Val.fmt a])
      else sliceLoop start stop rest i (result ++ flushStr string ++ [Val.fmt a]) [] ff
    else
      if i = stop then (ff ++ [Val.fmt a]) ++ result ++ flushStr string
      else sliceLoop start stop rest i result string (ff ++ [Val.fmt a])

/-- `StringWithFormatting._get_slice(start, stop)` (and hence
`__getitem__` with a slice): `start` defaults to 0, `stop` defaults to
`len(self)` and is truncated by `min(stop, len(self))`; `none` models the
`TypeError` that `len(self)` raises on corrupted content. -/
def getSlice (t : Val) (start? stop? : Option Int) : Option Val :=
  (pyLen t).map fun (n : Nat) =>
    Val.swf (sliceLoop (start?.getD 0) (min (stop?.getD (n : Int)) (n : Int))
      (chars t) 0 [] [] [])

/-- The characters of Python's `string.whitespace`
(`' \t\n\r\x0b\x0c'`), the set `_chunk` and `str.strip` break on. -/
def isWS (c : Char) : Bool :=
  c == ' ' || c == '\t' || c == '\n' || c == '\r' ||
    c == Char.ofNat 11 || c == Char.ofNat 12

/-- The three chunk kinds of `TextWrapper._chunk`. -/
inductive CType : Type where
  | format | brk | chr
deriving DecidableEq

/-- The chunk kind of a stream token (`'format'` / `'break'` / `'char'`). -/
def ctypeOf : Tok → CType
  | .mark _ => .format
  | .ch c => if isWS c then .brk else .chr

/-- The value a single stream token contributes as a fresh chunk
(a one-character string, or the marker itself). -/
def tokVal : Tok → Val
  | .ch c => .str [c]
  | .mark a => .fmt a

/-- Python truthiness of a chunk (`if current_chunk:`): a string is truthy
iff nonempty, a `Format` defines `__bool__` as `True`, and a
`StringWithFormatting` falls back to `__len__`. -/
def pyBool : Val → Option Bool
  | .str s => some (s ≠ [])
  | .fmt _ => some true
  | .swf l => (pyLen (.swf l)).map (· ≠ 0)

/-- The loop of `TextWrapper._chunk`: start a new chunk on every kind
transition (yielding the current chunk only if truthy), extend the
current chunk with `+=` otherwise; the final chunk is yielded
unconditionally. -/
def chunkLoop : List Tok → Val → Option CType → Option (List Val)
  | [], cur, _ => some [cur]
  | t :: rest, cur, prev =>
    let ty := ctypeOf t
    if prev = some ty then
      match pyAdd cur (tokVal t) with
      | none => none
      | some cur' => chunkLoop rest cur' (some ty)
    else
      match pyBool cur with
      | none => none
      | some b =>
        (chunkLoop rest (tokVal t) (some ty)).map fun tl =>
          if b then cur :: tl else tl

/-- `TextWrapper._chunk(text)` collected into a list (the chunk queue
`wrap` starts from), with `current_chunk = ''` initially. -/
def chunkF (text : Val) : Option (List Val) :=
  chunkLoop (chars text) (.str []) none

/-- `chunk.strip() == ''` for a string chunk: true iff every character is
whitespace (in particular for the empty string). -/
def wsOnly (s : List Char) : Bool := s.all isWS

/-- `TextWrapper._do_strip` scanning from the left (`_lstrip`): delete
whitespace-only string chunks, skip `Format` chunks, stop at the first
other string chunk; a `StringWithFormatting` chunk has no `strip`
method, so reaching one raises `AttributeError` (`none`). -/
def lstripChunks : List Val → Option (List Val)
  | [] => some []
  | .fmt a :: rest => (lstripChunks rest).map (Val.fmt a :: ·)
  | .str s :: rest =>
    if wsOnly s then lstripChunks rest else some (Val.str s :: rest)
  | .swf _ :: _ => none

/-- `TextWrapper._rstrip`: the same scan from the right. -/
def rstripChunks (l : List Val) : Option (List Val) :=
  (lstripChunks l.reverse).map List.reverse

/-- The inner packing loop of `TextWrapper.wrap`: greedily consume chunks
while `current_line_length + len(chunks[0]) <= width`.  Returns the
consumed prefix, the remaining queue, the line length, and the last
evaluated `current_chunk_length`; `none` models `len` raising. -/
def packLine (width : Int) : List Val → Int → Int →
    Option (List Val × List Val × Int × Int)
  | [], lineLen, ccl => some ([], [], lineLen, ccl)
  | c :: rest, lineLen, _ =>
    match pyLen c with
    | none => none
    | some l =>
      if lineLen + (l : Int) ≤ width then
        (packLine width rest (lineLen + (l : Int)) (l : Int)).map fun r =>
          (c :: r.1, r.2.1, r.2.2.1, r.2.2.2)
      else
        some ([], c :: rest, lineLen, (l : Int))

/-- Python slice index arithmetic for `s[:k]` / `s[k:]` on a string of
length `n`: negative indices count from the end (clamped at 0),
non-negative ones are clamped at `n`. -/
def pyIdx (k : Int) (n : Nat) : Nat :=
  if k < 0 then ((n : Int) + k).toNat else min k.toNat n

/-- `chunk[:k]` on a chunk value: string slicing for `str`, `_get_slice`
for `StringWithFormatting`, and a `TypeError` (`none`) for a bare
`Format` (not subscriptable). -/
def pySliceTo (v : Val) (k : Int) : Option Val :=
  match v with
  | .str s => some (.str (s.take (pyIdx k s.length)))
  | .fmt _ => none
  | .swf _ => getSlice v none (some k)

/-- `chunk[k:]` on a chunk value. -/
def pySliceFrom (v : Val) (k : Int) : Option Val :=
  match v with
  | .str s => some (.str (s.drop (pyIdx k s.length)))
  | .fmt _ => none
  | .swf _ => getSlice v (some k) none

/-- `reduce(lambda x, y: x + y, rest, first)`. -/
def reduceAdd : Val → List Val → Option Val
  | acc, [] => some acc
  | acc, v :: rest =>
    match pyAdd acc v with
    | none => none
    | some a => reduceAdd a rest

/-- Outcome of a Python call: a returned value or a raised exception. -/
inductive PyRes (α : Type) : Type where
  | ok : α → PyRes α
  | exn : PyRes α

/-- The outer `while chunks:` loop of `TextWrapper.wrap`, with explicit
fuel: `none` means the loop is still running after `fuel` iterations
(so `∀ fuel, … = none` expresses non-termination), `some .exn` a raised
exception, `some (.ok lines)` a normal return.  `acc` holds the emitted
lines in reverse. -/
def wrapLoop (width : Int) : Nat → List Val → List Val →
    Option (PyRes (List Val))
  | 0, _, _ => none
  | _ + 1, [], acc => some (.ok acc.reverse)
  | n + 1, c :: cs, acc =>
    match lstripChunks (c :: cs) with
    | none => some .exn
    | some chunks1 =>
      match packLine width chunks1 0 0 with
      | none => some .exn
      | some (line, rest, lineLen, ccl) =>
        let step : Option (List Val × List Val) :=
          if width < ccl then
            match rest with
            | [] => none
            | c0 :: rest' =>
              match pySliceTo c0 (width - lineLen),
                  pySliceFrom c0 (width - lineLen) with
              | some pre, some suf => some (line ++ [pre], suf :: rest')
              | _, _ => none
          else some (line, rest)
        match step with
        | none => some .exn
        | some (line2, rest2) =>
          match rstripChunks line2 with
          | none => some .exn
          | some line3 =>
            match line3 with
            | [] => wrapLoop width n rest2 (Val.str [] :: acc)
            | c0 :: cs0 =>
              match reduceAdd c0 cs0 with
              | none => some .exn
              | some lineVal => wrapLoop width n rest2 (lineVal :: acc)

/-- `wrap(text, width)` (module-level function): chunk the text, then run
the line loop. -/
def wrapTop (text : Val) (width : Int) (fuel : Nat) :
    Option (PyRes (List Val)) :=
  match chunkF text with
  | none => some .exn
  | some chunks => wrapLoop width fuel chunks []

/-- Whether a value is a legal rich-text segment: a plain-text run or a
single marker (the data model of the spec; a nested
`StringWithFormatting` is not a segment). -/
def SegOK : Val → Bool
  | .str _ => true
  | .fmt _ => true
  | .swf _ => false

/-- A well-formed `StringWithFormatting._content` list: every element is
a plain run or a marker. -/
def RichOK (l : List Val) : Prop := ∀ v ∈ l, SegOK v = true

/-- Whether a `_content` element is a plain-text run. -/
def isStr : Val → Bool
  | .str _ => true
  | _ => false

/-- No two adjacent elements of a `_content` list are both plain-text
runs (the canonical-form invariant of the spec). -/
def noAdjStrL : List Val → Bool
  | v :: w :: rest => (!(isStr v && isStr w)) && noAdjStrL (w :: rest)
  | _ => true

/-- `StringWithFormatting(s)` for a plain string `s`: the one-run content
tuple `(s,)`. -/
def fromString (s : List Char) : Val := .swf [.str s]

/-- `Format.__call__(content)`: `self + content + Format('normal')`. -/
def fmtCall (a : String) (content : Val) : Option Val :=
  (pyAdd (.fmt a) content).bind fun x => pyAdd x (.fmt "normal")

/-- Clamping an index into `[0, n]` (the slice semantics the spec
asserts). -/
def clamp (k : Int) (n : Nat) : Int := max 0 (min k (n : Int))

/-- Prefix of a token stream strictly before its `(n+1)`-th visible
character (all tokens of the stream when it has at most `n` of them):
the part of the original whose markers are "before visible position
`n`". -/
def takeBeforeCh : List Tok → Nat → List Tok
  | [], _ => []
  | .mark a :: rest, n => .mark a :: takeBeforeCh rest n
  | .ch _ :: _, 0 => []
  | .ch c :: rest, n + 1 => .ch c :: takeBeforeCh rest n

/-- The matching suffix: the stream from its `(n+1)`-th visible character
on. -/
def dropBeforeCh : List Tok → Nat → List Tok
  | [], _ => []
  | .mark _ :: rest, n => dropBeforeCh rest n
  | l@(.ch _ :: _), 0 => l
  | .ch _ :: rest, n + 1 => dropBeforeCh rest n

/-- Prefix of a token stream through its `n`-th visible character
(markers between kept characters included, markers after the `n`-th
character excluded). -/
def takeThroughCh : List Tok → Nat → List Tok
  | _, 0 => []
  | [], _ => []
  | .mark a :: rest, n + 1 => .mark a :: takeThroughCh rest (n + 1)
  | .ch c :: rest, n + 1 => .ch c :: takeThroughCh rest n

/-- The matching suffix: what remains after the `n`-th visible
character. -/
def dropThroughCh : List Tok → Nat → List Tok
  | l, 0 => l
  | [], _ => []
  | .mark _ :: rest, n + 1 => dropThroughCh rest (n + 1)
  | .ch _ :: rest, n + 1 => dropThroughCh rest n

/-- Token stream of a plain character run. -/
def strToks (s : List Char) : List Tok := s.map Tok.ch

/-- The markers of a token stream, as `_content` values, in order. -/
def marksOf : List Tok → List Val
  | [] => []
  | .mark a :: rest => Val.fmt a :: marksOf rest
  | .ch _ :: rest => marksOf rest

/-- Whether a token stream starts with a visible character. -/
def headIsCh (l : List Tok) : Bool :=
  match l with
  | .ch _ :: _ => true
  | _ => false

/-- Whether a token stream ends with a visible character. -/
def endsCh (l : List Tok) : Bool :=
  match l.getLast? with
  | some (.ch _) => true
  | _ => false

/-- Visible length of a `_content` list. -/
def vlenL (l : List Val) : Nat := cnt (charsL l)

/-- Whether a `_content` list ends in something other than a plain run
(vacuously true when empty). -/
def endsNonStr (l : List Val) : Bool :=
  match l.getLast? with
  | some (.str _) => false
  | _ => true

/-- Whether a `_content` list starts with something other than a plain
run (vacuously true when empty). -/
def headNonStr (l : List Val) : Bool :=
  match l with
  | .str _ :: _ => false
  | _ => true

/-- The shapes a chunk produced by `_chunk` can take: a string, a bare
marker, or a `StringWithFormatting` holding only markers (the
consecutive-markers case). -/
def GoodChunk : Val → Bool
  | .str _ => true
  | .fmt _ => true
  | .swf l => l.all isFmt

/-- Termination measure for the wrap loop: one unit per chunk plus the
total visible length. -/
def chunkMeasure (l : List Val) : Nat := (l.map (fun c => 1 + vlen c)).sum

/-- Invariant tying the current chunk of `_chunk` to the kind of the
previously seen token: after a marker the chunk is a marker or a
markers-only `StringWithFormatting`; otherwise it is a string. -/
def curOk (cur : Val) (prev : Option CType) : Prop :=
  (prev = some CType.format →
    (∃ a, cur = Val.fmt a) ∨ (∃ l, cur = Val.swf l ∧ l.all isFmt = true)) ∧
  (prev ≠ some CType.format → ∃ s, cur = Val.str s)

/-! ## Basic facts about the character stream -/

theorem charsL_append (l m : List Val) :
    charsL (l ++ m) = charsL l ++ charsL m := by
  induction l with
  | nil => simp [charsL]
  | cons v rest ih => simp [charsL, ih]

theorem chars_swf (l : List Val) : chars (Val.swf l) = charsL l := rfl

theorem charsL_flushStr (s : List Char) : charsL (flushStr s) = strToks s := by
  by_cases h : s = [] <;> simp [flushStr, h, charsL, chars, strToks]

theorem cnt_append (l m : List Tok) : cnt (l ++ m) = cnt l + cnt m := by
  simp [cnt, List.filter_append]

theorem cnt_strToks (s : List Char) : cnt (strToks s) = s.length := by
  induction s with
  | nil => rfl
  | cons c rest ih => simpa [strToks, cnt, isCh] using ih

theorem cnt_mark (a : String) : cnt [Tok.mark a] = 0 := rfl

theorem vlen_str (s : List Char) : vlen (Val.str s) = s.length := by
  simpa [vlen, chars, strToks] using cnt_strToks s

theorem vlen_fmt (a : String) : vlen (Val.fmt a) = 0 := rfl

theorem vlenL_append (l m : List Val) :
    vlenL (l ++ m) = vlenL l + vlenL m := by
  simp [vlenL, charsL_append, cnt_append]

theorem vlenL_cons (v : Val) (l : List Val) :
    vlenL (v :: l) = vlen v + vlenL l := by
  simpa [vlen] using (vlenL_append [v] l).trans (by simp [vlenL, charsL, cnt_append])

theorem strOfContent_allFmt (l : List Val) (h : l.all isFmt = true) :
    strOfContent l = some [] := by
  induction l with
  | nil => rfl
  | cons v rest ih =>
    simp only [List.all_cons, Bool.and_eq_true] at h
    cases v with
    | fmt a => exact ih h.2
    | str s => simp [isFmt] at h
    | swf m => simp [isFmt] at h

theorem charsL_allFmt (l : List Val) (h : l.all isFmt = true) :
    cnt (charsL l) = 0 := by
  induction l with
  | nil => rfl
  | cons v rest ih =>
    simp only [List.all_cons, Bool.and_eq_true] at h
    cases v with
    | fmt a =>
      show cnt (chars (Val.fmt a) ++ charsL rest) = 0
      rw [cnt_append, ih h.2]
      rfl
    | str s => simp [isFmt] at h
    | swf m => simp [isFmt] at h

theorem strOfContent_of_segOK (l : List Val) (h : ∀ v ∈ l, SegOK v = true) :
    ∃ s, strOfContent l = some s ∧ s.length = vlenL l := by
  induction l with
  | nil => exact ⟨[], rfl, rfl⟩
  | cons v rest ih =>
    obtain ⟨s, hs, hlen⟩ := ih fun w hw => h w (List.mem_cons_of_mem _ hw)
    have hv := h v (List.mem_cons_self v rest)
    cases v with
    | str t =>
      refine ⟨t ++ s, by simp [strOfContent, hs], ?_⟩
      simp [vlenL_cons, vlen_str, hlen]
    | fmt a =>
      refine ⟨s, by simp [strOfContent, hs], ?_⟩
      simp [vlenL_cons, vlen_fmt, hlen]
    | swf m => simp [SegOK] at hv

theorem pyLen_of_segOK (l : List Val) (h : ∀ v ∈ l, SegOK v = true) :
    pyLen (Val.swf l) = some (vlenL l) := by
  obtain ⟨s, hs, hlen⟩ := strOfContent_of_segOK l h
  simp [pyLen, pyStr, hs, hlen]

/-! ## The fuelled `+` : stream additivity and fuel sufficiency -/

theorem pyAddF_chars :
    ∀ n : Nat,
      (∀ a b c, pyAddF n a b = some (some c) →
        chars c = chars a ++ chars b) ∧
      (∀ l v m, mergeLastF n l v = some (some m) →
        charsL m = charsL l ++ chars v) := by
  intro n
  induction n with
  | zero =>
    constructor
    · intro a b c h; simp [pyAddF] at h
    · intro l v m h; simp [mergeLastF] at h
  | succ n ih =>
    obtain ⟨ihA, ihM⟩ := ih
    constructor
    · intro a b c h
      cases a with
      | str a =>
        cases b with
        | str b =>
          simp only [pyAddF, Option.some.injEq] at h
          subst h; simp [chars, List.map_append, strToks]
        | fmt b =>
          simp only [pyAddF, Option.some.injEq] at h
          subst h; simp [chars, charsL]
        | swf l =>
          cases l with
          | nil => simp [pyAddF] at h
          | cons d rest =>
            by_cases hd : isFmt d = true
            · simp only [pyAddF, hd, if_pos, Option.some.injEq] at h
              subst h; simp [chars, charsL]
            · rw [pyAddF, if_neg (by simp [hd]), Option.map_eq_some'] at h
              obtain ⟨r, hr, hmap⟩ := h
              cases r with
              | none => simp at hmap
              | some m =>
                rw [Option.map_some'] at hmap
                obtain rfl := Option.some.inj hmap
                have := ihA _ _ _ hr
                simp [chars, charsL, this]
      | fmt a =>
        cases b with
        | str b =>
          simp only [pyAddF, Option.some.injEq] at h
          subst h; simp [chars, charsL]
        | fmt b =>
          simp only [pyAddF, Option.some.injEq] at h
          subst h; simp [chars, charsL]
        | swf l =>
          simp only [pyAddF, Option.some.injEq] at h
          subst h; simp [chars, charsL]
      | swf l =>
        cases b with
        | fmt b =>
          simp only [pyAddF, Option.some.injEq] at h
          subst h; simp [chars, charsL_append, charsL]
        | str b =>
          cases l with
          | nil => simp [pyAddF] at h
          | cons d rest =>
            by_cases hd : lastIsFmt (d :: rest) = true
            · simp only [pyAddF, hd, if_pos, Option.some.injEq] at h
              subst h
              simp [chars, charsL_append, charsL, List.append_assoc]
            · rw [pyAddF, if_neg (by simp [hd]), Option.map_eq_some'] at h
              obtain ⟨r, hr, hmap⟩ := h
              cases r with
              | none => simp at hmap
              | some m =>
                rw [Option.map_some'] at hmap
                obtain rfl := Option.some.inj hmap
                exact ihM _ _ _ hr
        | swf m =>
          cases l with
          | nil => simp [pyAddF] at h
          | cons d rest =>
            cases m with
            | nil => simp [pyAddF] at h
            | cons e rest2 =>
              by_cases hc : (lastIsFmt (d :: rest) || lastIsFmt (e :: rest2)) = true
              · simp only [pyAddF, hc, if_pos, Option.some.injEq] at h
                subst h
                show charsL ((d :: rest) ++ (e :: rest2)) = _
                rw [charsL_append]
                rfl
              · rw [pyAddF, if_neg (by simp [hc]), Option.map_eq_some'] at h
                obtain ⟨r, hr, hmap⟩ := h
                cases r with
                | none => simp at hmap
                | some l2 =>
                  rw [Option.map_some'] at hmap
                  obtain rfl := Option.some.inj hmap
                  have := ihM _ _ _ hr
                  simp [chars, charsL_append, this, charsL]
    · intro l v m h
      cases l with
      | nil => simp [mergeLastF] at h
      | cons c rest =>
        cases rest with
        | nil =>
          rw [mergeLastF, Option.map_eq_some'] at h
          obtain ⟨r, hr, hmap⟩ := h
          cases r with
          | none => simp at hmap
          | some m0 =>
            rw [Option.map_some'] at hmap
            obtain rfl := Option.some.inj hmap
            have := ihA _ _ _ hr
            simp [charsL, this]
        | cons c2 rest2 =>
          rw [mergeLastF, Option.map_eq_some'] at h
          obtain ⟨r, hr, hmap⟩ := h
          cases r with
          | none => simp at hmap
          | some m0 =>
            rw [Option.map_some'] at hmap
            obtain rfl := Option.some.inj hmap
            have := ihM _ _ _ hr
            simp [charsL, this]

theorem valSize_pos (v : Val) : 1 ≤ valSize v := by
  cases v <;> simp [valSize]

theorem valSizeL_pos (l : List Val) : 1 ≤ valSizeL l := by
  cases l <;> simp_arith [valSizeL]

/-- The size-based fuel used by `pyAdd` and `mergeLast` is always enough:
the fuelled recursion never returns the out-of-fuel `none` at it.  So the
`Option`-valued `pyAdd` faithfully renders Python `+`: `some` a returned
value, `none` a raised exception. -/
theorem pyAddF_fuel_sufficient :
    ∀ n : Nat,
      (∀ a b, valSize a + valSize b ≤ n → ∃ r, pyAddF n a b = some r) ∧
      (∀ l v, valSizeL l + valSize v ≤ n → ∃ r, mergeLastF n l v = some r) := by
  intro n
  induction n with
  | zero =>
    constructor
    · intro a b hle
      have := valSize_pos a; have := valSize_pos b; omega
    · intro l v hle
      have := valSizeL_pos l; have := valSize_pos v; omega
  | succ n ih =>
    obtain ⟨ihA, ihM⟩ := ih
    constructor
    · intro a b hle
      cases a with
      | str a =>
        cases b with
        | str b => exact ⟨_, rfl⟩
        | fmt b => exact ⟨_, rfl⟩
        | swf l =>
          cases l with
          | nil => exact ⟨_, rfl⟩
          | cons c rest =>
            by_cases hc : isFmt c = true
            · exact ⟨_, by rw [pyAddF, if_pos hc]⟩
            · have hsz : valSize (Val.str a) + valSize c ≤ n := by
                have := valSizeL_pos rest
                simp only [valSize, valSizeL] at hle ⊢
                omega
              obtain ⟨r, hr⟩ := ihA _ _ hsz
              exact ⟨_, by rw [pyAddF, if_neg (by simp [hc]), hr, Option.map_some']⟩
      | fmt a =>
        cases b with
        | str b => exact ⟨_, rfl⟩
        | fmt b => exact ⟨_, rfl⟩
        | swf l => exact ⟨_, rfl⟩
      | swf l =>
        cases b with
        | fmt b => exact ⟨_, by rw [pyAddF]⟩
        | str b =>
          cases l with
          | nil => exact ⟨_, rfl⟩
          | cons c rest =>
            by_cases hc : lastIsFmt (c :: rest) = true
            · exact ⟨_, by rw [pyAddF, if_pos hc]⟩
            · have hsz : valSizeL (c :: rest) + valSize (Val.str b) ≤ n := by
                simp only [valSize, valSizeL] at hle ⊢
                omega
              obtain ⟨r, hr⟩ := ihM _ _ hsz
              exact ⟨_, by rw [pyAddF, if_neg (by simp [hc]), hr, Option.map_some']⟩
        | swf m =>
          cases l with
          | nil => exact ⟨_, rfl⟩
          | cons c rest =>
            cases m with
            | nil => exact ⟨_, rfl⟩
            | cons d rest2 =>
              by_cases hc : (lastIsFmt (c :: rest) || lastIsFmt (d :: rest2)) = true
              · exact ⟨_, by rw [pyAddF, if_pos hc]⟩
              · have hsz : valSizeL (c :: rest) + valSize d ≤ n := by
                  have := valSizeL_pos rest2
                  simp only [valSize, valSizeL] at hle ⊢
                  omega
                obtain ⟨r, hr⟩ := ihM _ _ hsz
                exact ⟨_, by rw [pyAddF, if_neg (by simp [hc]), hr, Option.map_some']⟩
    · intro l v hle
      cases l with
      | nil => exact ⟨_, rfl⟩
      | cons c rest =>
        cases rest with
        | nil =>
          have hsz : valSize c + valSize v ≤ n := by
            simp only [valSizeL] at hle
            omega
          obtain ⟨r, hr⟩ := ihA _ _ hsz
          exact ⟨_, by rw [mergeLastF, hr, Option.map_some']⟩
        | cons c2 rest2 =>
          have hsz : valSizeL (c2 :: rest2) + valSize v ≤ n := by
            have := valSize_pos c
            simp only [valSizeL] at hle ⊢
            omega
          obtain ⟨r, hr⟩ := ihM _ _ hsz
          exact ⟨_, by rw [mergeLastF, hr, Option.map_some']⟩

theorem pyAdd_chars (a b c : Val) (h : pyAdd a b = some c) :
    chars c = chars a ++ chars b := by
  unfold pyAdd at h
  cases hf : pyAddF (valSize a + valSize b) a b with
  | none => rw [hf] at h; simp at h
  | some r =>
    rw [hf] at h
    simp only [Option.getD_some] at h
    subst h
    exact (pyAddF_chars _).1 _ _ _ hf

theorem pyAdd_vlen (a b c : Val) (h : pyAdd a b = some c) :
    vlen c = vlen a + vlen b := by
  simp [vlen, pyAdd_chars a b c h, cnt_append]

/-! ## Token-stream bookkeeping -/

theorem cnt_cons_ch (c : Char) (l : List Tok) :
    cnt (Tok.ch c :: l) = cnt l + 1 := by
  simp [cnt, isCh, List.filter_cons]

theorem cnt_cons_mark (a : String) (l : List Tok) :
    cnt (Tok.mark a :: l) = cnt l := by
  simp [cnt, isCh, List.filter_cons]

theorem strToks_append (s t : List Char) :
    strToks (s ++ t) = strToks s ++ strToks t := by
  simp [strToks]

theorem endsCh_cons_ne (t : Tok) (l : List Tok) (h : l ≠ []) :
    endsCh (t :: l) = endsCh l := by
  have h2 : (t :: l).getLast? = l.getLast? := by
    simpa using List.getLast?_append_of_ne_nil [t] h
  rw [endsCh, endsCh, h2]

theorem endsCh_pos (l : List Tok) (h : endsCh l = true) : 1 ≤ cnt l := by
  induction l with
  | nil => simp [endsCh] at h
  | cons t rest ih =>
    by_cases hr : rest = []
    · subst hr
      cases t with
      | ch c => simp [cnt_cons_ch]
      | mark a => simp [endsCh] at h
    · rw [endsCh_cons_ne t rest hr] at h
      have := ih h
      cases t with
      | ch c => rw [cnt_cons_ch]; omega
      | mark a => rw [cnt_cons_mark]; omega

theorem takeBefore_append_dropBefore (toks : List Tok) :
    ∀ n, takeBeforeCh toks n ++ dropBeforeCh toks n = toks := by
  induction toks with
  | nil => intro n; rfl
  | cons t rest ih =>
    intro n
    cases t with
    | mark a => simp [takeBeforeCh, dropBeforeCh, ih n]
    | ch c =>
      cases n with
      | zero => rfl
      | succ n => simp [takeBeforeCh, dropBeforeCh, ih n]

theorem cnt_takeBeforeCh (toks : List Tok) :
    ∀ n, cnt (takeBeforeCh toks n) = min n (cnt toks) := by
  induction toks with
  | nil => intro n; simp [takeBeforeCh, cnt]
  | cons t rest ih =>
    intro n
    cases t with
    | mark a => simp [takeBeforeCh, cnt_cons_mark, ih n]
    | ch c =>
      cases n with
      | zero => simp [takeBeforeCh, cnt, cnt_cons_ch]
      | succ n =>
        rw [takeBeforeCh, cnt_cons_ch, cnt_cons_ch, ih n]
        omega

theorem headIsCh_dropBeforeCh (toks : List Tok) :
    ∀ n, n < cnt toks → headIsCh (dropBeforeCh toks n) = true := by
  induction toks with
  | nil => intro n h; simp [cnt] at h
  | cons t rest ih =>
    intro n h
    cases t with
    | mark a =>
      rw [cnt_cons_mark] at h
      show headIsCh (dropBeforeCh rest n) = true
      exact ih n h
    | ch c =>
      cases n with
      | zero => rfl
      | succ n =>
        rw [cnt_cons_ch] at h
        show headIsCh (dropBeforeCh rest n) = true
        exact ih n (by omega)

theorem takeThroughCh_zero (l : List Tok) : takeThroughCh l 0 = [] := by
  cases l with
  | nil => rfl
  | cons t rest => cases t <;> rfl

theorem dropThroughCh_zero (l : List Tok) : dropThroughCh l 0 = l := by
  cases l with
  | nil => rfl
  | cons t rest => cases t <;> rfl

theorem takeThrough_append_dropThrough (toks : List Tok) :
    ∀ m, takeThroughCh toks m ++ dropThroughCh toks m = toks := by
  induction toks with
  | nil => intro m; cases m <;> rfl
  | cons t rest ih =>
    intro m
    cases m with
    | zero => rw [takeThroughCh_zero, dropThroughCh_zero]; rfl
    | succ m =>
      cases t with
      | mark a => simp [takeThroughCh, dropThroughCh, ih (m + 1)]
      | ch c => simp [takeThroughCh, dropThroughCh, ih m]

theorem cnt_takeThroughCh (toks : List Tok) :
    ∀ m, cnt (takeThroughCh toks m) = min m (cnt toks) := by
  induction toks with
  | nil => intro m; cases m <;> simp [takeThroughCh, cnt]
  | cons t rest ih =>
    intro m
    cases m with
    | zero => simp [takeThroughCh_zero, cnt]
    | succ m =>
      cases t with
      | mark a => rw [takeThroughCh, cnt_cons_mark, cnt_cons_mark, ih (m + 1)]
      | ch c =>
        rw [takeThroughCh, cnt_cons_ch, cnt_cons_ch, ih m]
        omega

theorem takeThroughCh_ne_nil (toks : List Tok) :
    ∀ m, 1 ≤ m → 1 ≤ cnt toks → takeThroughCh toks m ≠ [] := by
  induction toks with
  | nil => intro m h1 h2; simp [cnt] at h2
  | cons t rest ih =>
    intro m h1 h2
    cases m with
    | zero => omega
    | succ m =>
      cases t with
      | mark a =>
        rw [cnt_cons_mark] at h2
        rw [takeThroughCh]
        simp
      | ch c =>
        rw [takeThroughCh]
        simp

theorem endsCh_takeThroughCh (toks : List Tok) :
    ∀ m, 1 ≤ m → m ≤ cnt toks → endsCh (takeThroughCh toks m) = true := by
  induction toks with
  | nil => intro m h1 h2; simp [cnt] at h2; omega
  | cons t rest ih =>
    intro m h1 h2
    cases m with
    | zero => omega
    | succ m =>
      cases t with
      | mark a =>
        rw [cnt_cons_mark] at h2
        rw [takeThroughCh,
          endsCh_cons_ne _ _ (takeThroughCh_ne_nil rest (m + 1) h1 (by omega))]
        exact ih (m + 1) h1 h2
      | ch c =>
        rw [cnt_cons_ch] at h2
        cases m with
        | zero =>
          rw [takeThroughCh, takeThroughCh_zero]
          rfl
        | succ m2 =>
          have hcnt : 1 ≤ cnt rest := by omega
          rw [takeThroughCh,
            endsCh_cons_ne _ _ (takeThroughCh_ne_nil rest (m2 + 1) (by omega) hcnt)]
          exact ih (m2 + 1) (by omega) (by omega)

theorem headIsCh_takeThroughCh (toks : List Tok) (m : Nat)
    (h : headIsCh toks = true) (hm : 1 ≤ m) :
    headIsCh (takeThroughCh toks m) = true := by
  cases toks with
  | nil => simp [headIsCh] at h
  | cons t rest =>
    cases t with
    | mark a => simp [headIsCh] at h
    | ch c =>
      cases m with
      | zero => omega
      | succ m => rfl

theorem charsL_marksOf (toks : List Tok) :
    charsL (marksOf toks) = toks.filter (fun t => !isCh t) := by
  induction toks with
  | nil => rfl
  | cons t rest ih =>
    cases t with
    | mark a => simp [marksOf, charsL, chars, List.filter_cons, isCh, ih]
    | ch c => simp [marksOf, List.filter_cons, isCh, ih]

theorem marksOf_segOK (toks : List Tok) :
    ∀ v ∈ marksOf toks, SegOK v = true := by
  induction toks with
  | nil => intro v hv; simp [marksOf] at hv
  | cons t rest ih =>
    intro v hv
    cases t with
    | mark a =>
      rw [marksOf] at hv
      rcases List.mem_cons.mp hv with h | h
      · subst h; rfl
      · exact ih v h
    | ch c => exact ih v hv

/-! ## The slice loop -/

theorem flushStr_segOK (s : List Char) : ∀ v ∈ flushStr s, SegOK v = true := by
  intro v hv
  by_cases h : s = [] <;> simp [flushStr, h] at hv
  subst hv; rfl

theorem sliceLoop_past (start stop : Int) (toks : List Tok) :
    ∀ (i : Int) res str ff, stop < i →
      sliceLoop start stop toks i res str ff = res := by
  induction toks with
  | nil => intro i res str ff h; rfl
  | cons t rest ih =>
    intro i res str ff h
    cases t with
    | ch c =>
      rw [sliceLoop, if_neg (by omega : ¬(i + 1 = stop)),
        if_neg (by omega : ¬(start < i + 1 ∧ i + 1 ≤ stop))]
      exact ih (i + 1) res str ff (by omega)
    | mark a =>
      rw [sliceLoop, if_neg (by omega : ¬(start < i ∧ i ≤ stop)),
        if_neg (by omega : ¬(i = stop))]
      exact ih i res str (ff ++ [Val.fmt a]) h

theorem sliceLoop_allFmt (start stop : Int) (toks : List Tok) :
    ∀ (i : Int) ff, stop ≤ start → ff.all isFmt = true →
      (sliceLoop start stop toks i [] [] ff).all isFmt = true := by
  induction toks with
  | nil => intro i ff h hff; rfl
  | cons t rest ih =>
    intro i ff h hff
    cases t with
    | ch c =>
      rw [sliceLoop, if_neg (by omega : ¬(start < i + 1 ∧ i + 1 ≤ stop))]
      by_cases hb : i + 1 = stop
      · rw [if_pos hb]
        simpa [flushStr] using hff
      · rw [if_neg hb]
        exact ih (i + 1) ff h hff
    | mark a =>
      rw [sliceLoop, if_neg (by omega : ¬(start < i ∧ i ≤ stop))]
      by_cases hb : i = stop
      · rw [if_pos hb]
        simp [flushStr, isFmt, List.all_append, hff]
      · rw [if_neg hb]
        exact ih i (ff ++ [Val.fmt a]) h (by simp [List.all_append, hff, isFmt])

theorem sliceLoop_segOK (start stop : Int) (toks : List Tok) :
    ∀ (i : Int) res str ff,
      (∀ v ∈ res, SegOK v = true) → (∀ v ∈ ff, SegOK v = true) →
      ∀ v ∈ sliceLoop start stop toks i res str ff, SegOK v = true := by
  induction toks with
  | nil => intro i res str ff hres hff v hv; exact hres v hv
  | cons t rest ih =>
    intro i res str ff hres hff v hv
    cases t with
    | ch c =>
      rw [sliceLoop] at hv
      split at hv
      · rcases List.mem_append.mp hv with h2 | h2
        · rcases List.mem_append.mp h2 with h3 | h3
          · exact hff v h3
          · exact hres v h3
        · exact flushStr_segOK _ v h2
      · exact ih (i + 1) res _ ff hres hff v hv
    | mark a =>
      rw [sliceLoop] at hv
      have hstep : ∀ w ∈ res ++ flushStr str ++ [Val.fmt a], SegOK w = true := by
        intro w hw
        rcases List.mem_append.mp hw with h2 | h2
        · rcases List.mem_append.mp h2 with h3 | h3
          · exact hres w h3
          · exact flushStr_segOK _ w h3
        · rcases List.mem_singleton.mp h2 with rfl; rfl
      split at hv
      · split at hv
        · rcases List.mem_append.mp hv with h2 | h2
          · exact hff v h2
          · exact hstep v h2
        · exact ih i _ [] ff hstep hff v hv
      · split at hv
        · rcases List.mem_append.mp hv with h2 | h2
          · rcases List.mem_append.mp h2 with h3 | h3
            · rcases List.mem_append.mp h3 with h4 | h4
              · exact hff v h4
              · rcases List.mem_singleton.mp h4 with rfl; rfl
            · exact hres v h3
          · exact flushStr_segOK _ v h2
        · refine ih i res str (ff ++ [Val.fmt a]) hres ?_ v hv
          intro w hw
          rcases List.mem_append.mp hw with h2 | h2
          · exact hff w h2
          · rcases List.mem_singleton.mp h2 with rfl; rfl

/-- Phase 1 of the slice loop: while the cumulative count stays at or
below `start` (and `start < stop`, so no break can fire), visible
characters are skipped and markers accumulate into `first_format`. -/
theorem sliceLoop_phase1 (start stop : Int) :
    ∀ (A rest : List Tok) (i : Int) (ff : List Val),
      i ≤ start → i + (cnt A : Int) ≤ start → start < stop →
      sliceLoop start stop (A ++ rest) i [] [] ff
        = sliceLoop start stop rest (i + (cnt A : Int)) [] [] (ff ++ marksOf A) := by
  intro A
  induction A with
  | nil =>
    intro rest i ff h1 h2 h3
    simp [cnt, marksOf]
  | cons t A ih =>
    intro rest i ff h1 h2 h3
    cases t with
    | ch c =>
      rw [cnt_cons_ch] at h2 ⊢
      have hA : (0 : Int) ≤ (cnt A : Int) := by positivity
      have h2a : i + 1 + (cnt A : Int) ≤ start := by push_cast at h2; omega
      rw [List.cons_append, sliceLoop,
        if_neg (by omega : ¬(i + 1 = stop)),
        if_neg (by omega : ¬(start < i + 1 ∧ i + 1 ≤ stop))]
      rw [show i + ((cnt A + 1 : Nat) : Int) = i + 1 + (cnt A : Int) by push_cast; omega,
        show marksOf (Tok.ch c :: A) = marksOf A from rfl]
      exact ih rest (i + 1) ff (by omega) h2a h3
    | mark a =>
      rw [cnt_cons_mark] at h2 ⊢
      rw [List.cons_append, sliceLoop,
        if_neg (by omega : ¬(start < i ∧ i ≤ stop)),
        if_neg (by omega : ¬(i = stop))]
      rw [ih rest i (ff ++ [Val.fmt a]) h1 h2 h3]
      rw [marksOf, List.append_assoc]
      rfl

/-- Phase 2 of the slice loop: once inside the visible window, the
remaining window `B` (which ends at the `stop`-th visible character) is
reproduced verbatim in the output stream, after the collected
`first_format`, the `result` so far and the pending run. -/
theorem sliceLoop_phase2 (start stop : Int) :
    ∀ (B C : List Tok) (i : Int) (res : List Val) (str : List Char)
      (ff : List Val),
      start ≤ i → i + (cnt B : Int) = stop → 1 ≤ cnt B →
      (headIsCh B = true ∨ start < i) → endsCh B = true →
      charsL (sliceLoop start stop (B ++ C) i res str ff)
        = charsL ff ++ charsL res ++ strToks str ++ B := by
  intro B
  induction B with
  | nil =>
    intro C i res str ff h1 h2 h3 h4 h5
    simp [cnt] at h3
  | cons t B ih =>
    intro C i res str ff h1 h2 h3 h4 h5
    cases t with
    | ch c =>
      rw [cnt_cons_ch] at h2
      push_cast at h2
      by_cases hB : cnt B = 0
      · have hBnil : B = [] := by
          by_contra hne
          rw [endsCh_cons_ne _ _ hne] at h5
          have := endsCh_pos B h5
          omega
        subst hBnil
        simp only [hB, Nat.cast_zero, add_zero] at h2
        rw [List.cons_append, List.nil_append, sliceLoop,
          if_pos (by omega : i + 1 = stop),
          if_pos (by constructor <;> omega : start < i + 1 ∧ i + 1 ≤ stop)]
        have hne : str ++ [c] ≠ [] := by simp
        rw [charsL_append, charsL_append, charsL_flushStr, strToks_append]
        simp [strToks]
      · have hBne : B ≠ [] := by
          intro hnil; rw [hnil] at hB; exact hB rfl
        rw [List.cons_append, sliceLoop,
          if_neg (by omega : ¬(i + 1 = stop)),
          if_pos (by constructor <;> omega : start < i + 1 ∧ i + 1 ≤ stop)]
        rw [ih C (i + 1) res (str ++ [c]) ff (by omega) (by omega) (by omega)
          (Or.inr (by omega)) (by rwa [endsCh_cons_ne _ _ hBne] at h5)]
        rw [strToks_append]
        simp [strToks, List.append_assoc]
    | mark a =>
      rw [cnt_cons_mark] at h2 h3
      have hstart : start < i := by
        rcases h4 with h4 | h4
        · simp [headIsCh] at h4
        · exact h4
      have hBne : B ≠ [] := by
        intro hnil
        rw [hnil] at h3
        simp [cnt] at h3
      rw [List.cons_append, sliceLoop,
        if_pos (by constructor <;> omega : start < i ∧ i ≤ stop),
        if_neg (by omega : ¬(i = stop))]
      rw [ih C i (res ++ flushStr str ++ [Val.fmt a]) [] ff h1 h2 h3
        (Or.inr hstart) (by rwa [endsCh_cons_ne _ _ hBne] at h5)]
      rw [charsL_append, charsL_append, charsL_flushStr]
      simp [strToks, charsL, chars, List.append_assoc]

theorem cnt_filter_marks (toks : List Tok) :
    cnt (toks.filter (fun t => !isCh t)) = 0 := by
  rw [cnt, List.filter_filter]
  simp

/-- Characterization of a nonempty-window slice `t[i:j]` (for
`0 ≤ i < j ≤ len`): its stream is the markers before the window, in
order, followed by the window itself (the tokens from the `(i+1)`-th
through the `j`-th visible character). -/
theorem slice_chars (l : List Val) (hok : RichOK l) (i j : Nat) (hij : i < j)
    (hj : j ≤ vlenL l) :
    ∃ r, getSlice (Val.swf l) (some (i : Int)) (some (j : Int)) =
        some (Val.swf r) ∧
      charsL r = (takeBeforeCh (charsL l) i).filter (fun t => !isCh t) ++
        takeThroughCh (dropBeforeCh (charsL l) i) (j - i) ∧
      (∀ v ∈ r, SegOK v = true) ∧ cnt (charsL r) = j - i := by
  have hlen : pyLen (Val.swf l) = some (vlenL l) := pyLen_of_segOK l hok
  have hmin : min ((j : Nat) : Int) ((vlenL l : Nat) : Int) = (j : Int) :=
    min_eq_left (by exact_mod_cast hj)
  have hslice : getSlice (Val.swf l) (some (i : Int)) (some (j : Int)) =
      some (Val.swf (sliceLoop i j (charsL l) 0 [] [] [])) := by
    rw [getSlice, hlen, Option.map_some']
    simp only [Option.getD_some, hmin]
    rfl
  have hN : cnt (charsL l) = vlenL l := rfl
  have hiN : i < vlenL l := lt_of_lt_of_le hij hj
  have hdec1 := takeBefore_append_dropBefore (charsL l) i
  have hcntA : cnt (takeBeforeCh (charsL l) i) = i := by
    rw [cnt_takeBeforeCh, hN]
    omega
  have hcntR : cnt (dropBeforeCh (charsL l) i) = vlenL l - i := by
    have := cnt_append (takeBeforeCh (charsL l) i) (dropBeforeCh (charsL l) i)
    rw [hdec1, hN, hcntA] at this
    omega
  have hheadR : headIsCh (dropBeforeCh (charsL l) i) = true :=
    headIsCh_dropBeforeCh (charsL l) i (by rw [hN]; omega)
  have hdec2 := takeThrough_append_dropThrough (dropBeforeCh (charsL l) i) (j - i)
  have hcntB : cnt (takeThroughCh (dropBeforeCh (charsL l) i) (j - i)) = j - i := by
    rw [cnt_takeThroughCh, hcntR]
    omega
  have hendsB : endsCh (takeThroughCh (dropBeforeCh (charsL l) i) (j - i)) = true :=
    endsCh_takeThroughCh _ _ (by omega) (by rw [hcntR]; omega)
  have hheadB : headIsCh (takeThroughCh (dropBeforeCh (charsL l) i) (j - i)) = true :=
    headIsCh_takeThroughCh _ _ hheadR (by omega)
  have hchars : charsL (sliceLoop i j (charsL l) 0 [] [] []) =
      (takeBeforeCh (charsL l) i).filter (fun t => !isCh t) ++
        takeThroughCh (dropBeforeCh (charsL l) i) (j - i) := by
    have hsplit : charsL l = takeBeforeCh (charsL l) i ++
        (takeThroughCh (dropBeforeCh (charsL l) i) (j - i) ++
          dropThroughCh (dropBeforeCh (charsL l) i) (j - i)) := by
      rw [hdec2, hdec1]
    nth_rewrite 1 [hsplit]
    rw [sliceLoop_phase1 i j _ _ 0 [] (by exact_mod_cast Nat.zero_le i)
      (by rw [hcntA]; simp) (by exact_mod_cast hij)]
    rw [show (0 : Int) + (cnt (takeBeforeCh (charsL l) i) : Int) = (i : Int) by
      rw [hcntA]; omega, List.nil_append]
    rw [sliceLoop_phase2 i j _ _ _ [] [] (marksOf (takeBeforeCh (charsL l) i))
      le_rfl (by rw [hcntB]; omega) (by omega) (Or.inl hheadB) hendsB]
    rw [charsL_marksOf]
    simp [charsL, strToks]
  refine ⟨sliceLoop i j (charsL l) 0 [] [] [], hslice, hchars, ?_, ?_⟩
  · exact sliceLoop_segOK i j _ 0 [] [] [] (by intro v hv; simp at hv)
      (by intro v hv; simp at hv)
  · rw [hchars, cnt_append, cnt_filter_marks, hcntB]
    omega

/-! ## The canonical-form invariant under slicing -/

theorem endsNonStr_singleton (v : Val) : endsNonStr [v] = !isStr v := by
  cases v <;> rfl

theorem headNonStr_cons (w : Val) (l : List Val) :
    headNonStr (w :: l) = !isStr w := by
  cases w <;> rfl

theorem endsNonStr_cons_ne (v : Val) (l : List Val) (h : l ≠ []) :
    endsNonStr (v :: l) = endsNonStr l := by
  have h2 : (v :: l).getLast? = l.getLast? := by
    simpa using List.getLast?_append_of_ne_nil [v] h
  rw [endsNonStr, endsNonStr, h2]

theorem endsNonStr_append_ne (x y : List Val) (h : y ≠ []) :
    endsNonStr (x ++ y) = endsNonStr y := by
  rw [endsNonStr, endsNonStr, List.getLast?_append_of_ne_nil x h]

theorem noAdjStrL_singleton (v : Val) : noAdjStrL [v] = true := by
  cases v <;> rfl

theorem flushStr_noAdj (s : List Char) : noAdjStrL (flushStr s) = true := by
  by_cases h : s = [] <;> simp [flushStr, h, noAdjStrL]

theorem flushStr_ne_nil_of (s : List Char) (h : s ≠ []) : flushStr s ≠ [] := by
  simp [flushStr, h]

theorem noAdj_append (x : List Val) :
    ∀ y, noAdjStrL x = true → noAdjStrL y = true →
      (endsNonStr x = true ∨ headNonStr y = true) →
      noAdjStrL (x ++ y) = true := by
  induction x with
  | nil => intro y _ hy _; simpa using hy
  | cons v x ih =>
    intro y hx hy hj
    cases x with
    | nil =>
      cases y with
      | nil => exact noAdjStrL_singleton v
      | cons w y2 =>
        rw [List.singleton_append, noAdjStrL]
        refine (Bool.and_eq_true _ _).mpr ⟨?_, hy⟩
        rcases hj with hj | hj
        · rw [endsNonStr_singleton] at hj
          simp only [Bool.not_eq_true'] at hj
          simp [hj]
        · rw [headNonStr_cons] at hj
          simp only [Bool.not_eq_true'] at hj
          simp [hj]
    | cons v2 x2 =>
      rw [noAdjStrL, Bool.and_eq_true] at hx
      rw [List.cons_append, List.cons_append, noAdjStrL, Bool.and_eq_true]
      refine ⟨hx.1, ?_⟩
      refine ih y hx.2 hy ?_
      rcases hj with hj | hj
      · left
        rwa [endsNonStr_cons_ne v (v2 :: x2) (by simp)] at hj
      · right
        exact hj

theorem allFmt_noAdj (l : List Val) (h : l.all isFmt = true) :
    noAdjStrL l = true := by
  induction l with
  | nil => rfl
  | cons v rest ih =>
    simp only [List.all_cons, Bool.and_eq_true] at h
    cases rest with
    | nil => exact noAdjStrL_singleton v
    | cons w rest2 =>
      rw [noAdjStrL, Bool.and_eq_true]
      refine ⟨?_, ih h.2⟩
      cases v with
      | fmt a => simp [isStr]
      | str s => simp [isFmt] at h
      | swf m => simp [isFmt] at h

theorem allFmt_endsNonStr (l : List Val) (h : l.all isFmt = true) :
    endsNonStr l = true := by
  cases hl : l.getLast? with
  | none => rw [endsNonStr, hl]
  | some v =>
    have hv : v ∈ l := by
      obtain ⟨hne, heq⟩ := List.mem_getLast?_eq_getLast
        (show v ∈ l.getLast? by simp [Option.mem_def, hl])
      rw [heq]
      exact List.getLast_mem hne
    have := List.all_eq_true.mp h v hv
    cases v with
    | fmt a => rw [endsNonStr, hl]
    | str s => simp [isFmt] at this
    | swf m => simp [isFmt] at this

/-- The slice loop only ever appends a pending run just before a marker
or at the very end, so its output never holds two adjacent plain runs. -/
theorem sliceLoop_noAdj (start stop : Int) (toks : List Tok) :
    ∀ (i : Int) res str ff, noAdjStrL res = true → endsNonStr res = true →
      ff.all isFmt = true →
      noAdjStrL (sliceLoop start stop toks i res str ff) = true := by
  induction toks with
  | nil => intro i res str ff hres hend hff; exact hres
  | cons t rest ih =>
    intro i res str ff hres hend hff
    have hcore : ∀ s : List Char, noAdjStrL (res ++ flushStr s) = true :=
      fun s => noAdj_append res (flushStr s) hres (flushStr_noAdj s) (Or.inl hend)
    have hffAdj : noAdjStrL ff = true := allFmt_noAdj ff hff
    have hffEnd : endsNonStr ff = true := allFmt_endsNonStr ff hff
    cases t with
    | ch c =>
      rw [sliceLoop]
      split
      · rw [List.append_assoc]
        exact noAdj_append ff _ hffAdj (hcore _) (Or.inl hffEnd)
      · exact ih (i + 1) res _ ff hres hend hff
    | mark a =>
      have hstep : ∀ s : List Char,
          noAdjStrL (res ++ flushStr s ++ [Val.fmt a]) = true := fun s =>
        noAdj_append _ _ (hcore s) (noAdjStrL_singleton _)
          (Or.inr (by rw [headNonStr_cons]; rfl))
      rw [sliceLoop]
      split
      · split
        · exact noAdj_append ff _ hffAdj (hstep str) (Or.inl hffEnd)
        · refine ih i _ [] ff (hstep str) ?_ hff
          rw [endsNonStr_append_ne _ _ (by simp)]
          rfl
      · split
        · rw [List.append_assoc]
          refine noAdj_append (ff ++ [Val.fmt a]) _ ?_ (hcore str) (Or.inl ?_)
          · exact allFmt_noAdj _ (by simp [List.all_append, hff, isFmt])
          · rw [endsNonStr_append_ne _ _ (by simp)]
            rfl
        · exact ih i res str (ff ++ [Val.fmt a]) hres hend
            (by simp [List.all_append, hff, isFmt])

/-! ## Slice bounds beyond the valid range -/

theorem sliceLoop_start_le_zero (stop : Int) (toks : List Tok) :
    ∀ (s1 s2 i : Int) (res : List Val) (str : List Char) (ff : List Val),
      s1 ≤ 0 → s2 ≤ 0 → 1 ≤ i →
      sliceLoop s1 stop toks i res str ff = sliceLoop s2 stop toks i res str ff := by
  induction toks with
  | nil => intro s1 s2 i res str ff h1 h2 hi; rfl
  | cons t rest ih =>
    intro s1 s2 i res str ff h1 h2 hi
    cases t with
    | ch c =>
      have hc : ∀ s : Int, s ≤ 0 →
          ((s < i + 1 ∧ i + 1 ≤ stop) ↔ (i + 1 ≤ stop)) := by
        intro s hs
        constructor
        · exact fun h => h.2
        · exact fun h => ⟨by omega, h⟩
      rw [sliceLoop, sliceLoop]
      by_cases hs : i + 1 ≤ stop
      · simp only [if_pos ((hc s1 h1).mpr hs), if_pos ((hc s2 h2).mpr hs)]
        by_cases hb : i + 1 = stop
        · simp [hb]
        · simp only [if_neg hb]
          exact ih s1 s2 (i + 1) res (str ++ [c]) ff h1 h2 (by omega)
      · simp only [if_neg (fun h => hs ((hc s1 h1).mp h)),
          if_neg (fun h => hs ((hc s2 h2).mp h)),
          if_neg (show ¬(i + 1 = stop) by omega)]
        exact ih s1 s2 (i + 1) res str ff h1 h2 (by omega)
    | mark a =>
      rw [sliceLoop, sliceLoop]
      by_cases hs : i ≤ stop
      · simp only [if_pos (show s1 < i ∧ i ≤ stop from ⟨by omega, hs⟩),
          if_pos (show s2 < i ∧ i ≤ stop from ⟨by omega, hs⟩)]
        by_cases hb : i = stop
        · simp [hb]
        · simp only [if_neg hb]
          exact ih s1 s2 i (res ++ flushStr str ++ [Val.fmt a]) [] ff h1 h2 hi
      · simp only [if_neg (show ¬(s1 < i ∧ i ≤ stop) from fun h => hs h.2),
          if_neg (show ¬(s2 < i ∧ i ≤ stop) from fun h => hs h.2),
          if_neg (show ¬(i = stop) by omega)]
        exact ih s1 s2 i res str (ff ++ [Val.fmt a]) h1 h2 hi

theorem sliceLoop_res_shift (stop : Int) (toks : List Tok) :
    ∀ (s i : Int) (r ρ : List Val) (str : List Char) (ff : List Val),
      s ≤ 0 → 1 ≤ i → i < stop → stop ≤ i + (cnt toks : Int) →
      sliceLoop s stop toks i (r ++ ρ) str ff
        = sliceLoop s stop toks i ρ str (ff ++ r) := by
  induction toks with
  | nil =>
    intro s i r ρ str ff h0 hi hlt hub
    simp only [cnt, List.filter_nil, List.length_nil, Nat.cast_zero,
      add_zero] at hub
    omega
  | cons t rest ih =>
    intro s i r ρ str ff h0 hi hlt hub
    cases t with
    | ch c =>
      rw [cnt_cons_ch] at hub
      push_cast at hub
      rw [sliceLoop, sliceLoop]
      simp only [if_pos (show s < i + 1 ∧ i + 1 ≤ stop from ⟨by omega, by omega⟩)]
      by_cases hb : i + 1 = stop
      · simp only [if_pos hb]
        simp [List.append_assoc]
      · simp only [if_neg hb]
        exact ih s (i + 1) r ρ (str ++ [c]) ff h0 (by omega) (by omega) (by omega)
    | mark a =>
      rw [cnt_cons_mark] at hub
      rw [sliceLoop, sliceLoop]
      simp only [if_pos (show s < i ∧ i ≤ stop from ⟨by omega, by omega⟩),
        if_neg (show ¬(i = stop) by omega)]
      rw [show (r ++ ρ) ++ flushStr str ++ [Val.fmt a]
        = r ++ (ρ ++ flushStr str ++ [Val.fmt a]) by simp [List.append_assoc]]
      exact ih s i r (ρ ++ flushStr str ++ [Val.fmt a]) [] ff h0 hi hlt hub

theorem sliceLoop_start_ge (stop : Int) (toks : List Tok) :
    ∀ (s1 s2 i : Int) (res : List Val) (str : List Char) (ff : List Val),
      i + (cnt toks : Int) ≤ s1 → i + (cnt toks : Int) ≤ s2 →
      sliceLoop s1 stop toks i res str ff = sliceLoop s2 stop toks i res str ff := by
  induction toks with
  | nil => intro s1 s2 i res str ff h1 h2; rfl
  | cons t rest ih =>
    intro s1 s2 i res str ff h1 h2
    cases t with
    | ch c =>
      rw [cnt_cons_ch] at h1 h2
      push_cast at h1 h2
      have hcnt : (0 : Int) ≤ (cnt rest : Int) := by positivity
      rw [sliceLoop, sliceLoop]
      simp only [if_neg (show ¬(s1 < i + 1 ∧ i + 1 ≤ stop) from fun hc => by omega),
        if_neg (show ¬(s2 < i + 1 ∧ i + 1 ≤ stop) from fun hc => by omega)]
      by_cases hb : i + 1 = stop
      · simp [hb]
      · simp only [if_neg hb]
        exact ih s1 s2 (i + 1) res str ff (by omega) (by omega)
    | mark a =>
      rw [cnt_cons_mark] at h1 h2
      have hcnt : (0 : Int) ≤ (cnt rest : Int) := by positivity
      rw [sliceLoop, sliceLoop]
      simp only [if_neg (show ¬(s1 < i ∧ i ≤ stop) from fun hc => by omega),
        if_neg (show ¬(s2 < i ∧ i ≤ stop) from fun hc => by omega)]
      by_cases hb : i = stop
      · simp [hb]
      · simp only [if_neg hb]
        exact ih s1 s2 i res str (ff ++ [Val.fmt a]) h1 h2

/-- A negative `start` behaves exactly like `start = 0`, provided the
`stop` the code computes lies in `[0, number of visible characters]`:
leading markers land in `result` directly instead of passing through
`first_format`, but every break re-assembles them identically. -/
theorem sliceLoop_neg_start (stop : Int) (toks : List Tok) :
    ∀ (s : Int) (r : List Val), s < 0 → 0 ≤ stop → stop ≤ (cnt toks : Int) →
      (r = [] ∨ 1 ≤ stop) →
      sliceLoop s stop toks 0 r [] [] = sliceLoop 0 stop toks 0 [] [] r := by
  induction toks with
  | nil =>
    intro s r hs h0 hub hr
    simp only [cnt, List.filter_nil, List.length_nil, Nat.cast_zero] at hub
    have hrnil : r = [] := by
      rcases hr with hr | hr
      · exact hr
      · omega
    subst hrnil
    rfl
  | cons t rest ih =>
    intro s r hs h0 hub hr
    cases t with
    | mark a =>
      rw [cnt_cons_mark] at hub
      rw [sliceLoop, sliceLoop]
      simp only [if_pos (show s < 0 ∧ (0 : Int) ≤ stop from ⟨hs, h0⟩),
        if_neg (show ¬((0 : Int) < 0 ∧ (0 : Int) ≤ stop) from fun hc => by omega)]
      by_cases hb : (0 : Int) = stop
      · simp only [if_pos hb]
        simp [flushStr]
      · simp only [if_neg hb]
        rw [show r ++ flushStr [] ++ [Val.fmt a] = r ++ [Val.fmt a] by simp [flushStr]]
        exact ih s (r ++ [Val.fmt a]) hs h0 hub (Or.inr (by omega))
    | ch c =>
      rw [cnt_cons_ch] at hub
      push_cast at hub
      rw [sliceLoop, sliceLoop]
      by_cases h1 : (1 : Int) ≤ stop
      · simp only [if_pos (show s < 0 + 1 ∧ (0 : Int) + 1 ≤ stop from
            ⟨by omega, by omega⟩),
          if_pos (show (0 : Int) < 0 + 1 ∧ (0 : Int) + 1 ≤ stop from
            ⟨by omega, by omega⟩)]
        by_cases hb : (0 : Int) + 1 = stop
        · simp [hb]
        · simp only [if_neg hb, List.nil_append]
          calc sliceLoop s stop rest (0 + 1) r [c] []
              = sliceLoop s stop rest (0 + 1) (r ++ []) [c] [] := by
                rw [List.append_nil]
            _ = sliceLoop s stop rest (0 + 1) [] [c] ([] ++ r) :=
                sliceLoop_res_shift stop rest s (0 + 1) r [] [c] [] (by omega)
                  (by omega) (by omega) (by omega)
            _ = sliceLoop 0 stop rest (0 + 1) [] [c] ([] ++ r) :=
                sliceLoop_start_le_zero stop rest s 0 (0 + 1) [] [c] ([] ++ r)
                  (by omega) le_rfl (by omega)
            _ = sliceLoop 0 stop rest (0 + 1) [] [c] r := by
                rw [List.nil_append]
      · have hstop : stop = 0 := by omega
        have hrnil : r = [] := by
          rcases hr with hr | hr
          · exact hr
          · omega
        subst hrnil
        simp only [
          if_neg (show ¬(s < 0 + 1 ∧ (0 : Int) + 1 ≤ stop) from fun hc => by omega),
          if_neg (show ¬((0 : Int) < 0 + 1 ∧ (0 : Int) + 1 ≤ stop) from
            fun hc => by omega),
          if_neg (show ¬((0 : Int) + 1 = stop) by omega)]
        exact sliceLoop_start_le_zero stop rest s 0 (0 + 1) [] [] []
          (by omega) le_rfl (by omega)

/-! ## The wrapper: chunk shapes, stripping, packing -/

theorem vlenL_nil : vlenL [] = 0 := rfl

theorem good_pyLen (c : Val) (h : GoodChunk c = true) :
    pyLen c = some (vlen c) := by
  cases c with
  | str s => simp [pyLen, pyStr, vlen_str]
  | fmt a => simp [pyLen, pyStr, vlen_fmt]
  | swf l =>
    rw [GoodChunk] at h
    rw [pyLen, show pyStr (Val.swf l) = strOfContent l from rfl,
      strOfContent_allFmt l h, Option.map_some']
    rw [show vlen (Val.swf l) = cnt (charsL l) from rfl, charsL_allFmt l h]
    rfl

theorem good_str_of_vlen_pos (c : Val) (hg : GoodChunk c = true)
    (hv : 1 ≤ vlen c) : ∃ s, c = Val.str s ∧ vlen c = s.length := by
  cases c with
  | str s => exact ⟨s, rfl, vlen_str s⟩
  | fmt a => rw [vlen_fmt] at hv; omega
  | swf l =>
    rw [GoodChunk] at hg
    rw [show vlen (Val.swf l) = cnt (charsL l) from rfl, charsL_allFmt l hg] at hv
    omega

theorem pyAdd_str_str (a b : List Char) :
    pyAdd (Val.str a) (Val.str b) = some (Val.str (a ++ b)) := rfl

theorem pyAdd_fmt_fmt (a b : String) :
    pyAdd (Val.fmt a) (Val.fmt b) = some (Val.swf [Val.fmt a, Val.fmt b]) := rfl

theorem pyAdd_swf_fmt (l : List Val) (b : String) :
    pyAdd (Val.swf l) (Val.fmt b) = some (Val.swf (l ++ [Val.fmt b])) := by
  cases l <;> rfl

theorem curOk_good (cur : Val) (prev : Option CType) (h : curOk cur prev) :
    GoodChunk cur = true := by
  by_cases hp : prev = some CType.format
  · rcases h.1 hp with ⟨a, rfl⟩ | ⟨l, rfl, hall⟩
    · rfl
    · exact hall
  · obtain ⟨s, rfl⟩ := h.2 hp
    rfl

theorem ctypeOf_mark (a : String) : ctypeOf (Tok.mark a) = CType.format := rfl

theorem ctypeOf_ch_ne_format (c : Char) : ctypeOf (Tok.ch c) ≠ CType.format := by
  rw [ctypeOf]
  by_cases h : isWS c <;> simp [h]

theorem curOk_tokVal (t : Tok) : curOk (tokVal t) (some (ctypeOf t)) := by
  cases t with
  | ch c =>
    refine ⟨fun h => ?_, fun _ => ⟨[c], rfl⟩⟩
    exact absurd (Option.some.inj h) (ctypeOf_ch_ne_format c)
  | mark a =>
    refine ⟨fun _ => Or.inl ⟨a, rfl⟩, fun h => ?_⟩
    rw [ctypeOf_mark] at h
    exact absurd rfl h

theorem chunkLoop_good (toks : List Tok) :
    ∀ (cur : Val) (prev : Option CType) (chunks : List Val),
      curOk cur prev → chunkLoop toks cur prev = some chunks →
      ∀ c ∈ chunks, GoodChunk c = true := by
  induction toks with
  | nil =>
    intro cur prev chunks hcur h c hc
    rw [chunkLoop] at h
    obtain rfl := Option.some.inj h
    rcases List.mem_singleton.mp hc with rfl
    exact curOk_good _ _ hcur
  | cons t rest ih =>
    intro cur prev chunks hcur h c hc
    rw [chunkLoop] at h
    by_cases hp : prev = some (ctypeOf t)
    · rw [if_pos hp] at h
      cases t with
      | ch c2 =>
        have hty := ctypeOf_ch_ne_format c2
        obtain ⟨s, rfl⟩ := hcur.2 (by
          rw [hp]
          intro hcon
          exact hty (Option.some.inj hcon))
        rw [show tokVal (Tok.ch c2) = Val.str [c2] from rfl, pyAdd_str_str] at h
        refine ih _ _ _ ?_ h c hc
        refine ⟨fun hcon => ?_, fun _ => ⟨s ++ [c2], rfl⟩⟩
        exact absurd (Option.some.inj hcon) hty
      | mark a =>
        rw [ctypeOf_mark] at hp
        rcases hcur.1 hp with ⟨b, rfl⟩ | ⟨l, rfl, hall⟩
        · rw [show tokVal (Tok.mark a) = Val.fmt a from rfl, pyAdd_fmt_fmt] at h
          refine ih _ _ _ ?_ h c hc
          rw [ctypeOf_mark]
          refine ⟨fun _ => Or.inr ⟨[Val.fmt b, Val.fmt a], rfl, by simp [isFmt]⟩,
            fun hcon => absurd rfl hcon⟩
        · rw [show tokVal (Tok.mark a) = Val.fmt a from rfl, pyAdd_swf_fmt] at h
          refine ih _ _ _ ?_ h c hc
          rw [ctypeOf_mark]
          refine ⟨fun _ => Or.inr ⟨l ++ [Val.fmt a], rfl, by
            simp [List.all_append, hall, isFmt]⟩, fun hcon => absurd rfl hcon⟩
    · rw [if_neg hp] at h
      cases hpb : pyBool cur with
      | none =>
        rw [hpb] at h
        exact absurd h (by simp)
      | some b =>
        rw [hpb, Option.map_eq_some'] at h
        obtain ⟨tl, htl, hchunks⟩ := h
        have hgtl : ∀ x ∈ tl, GoodChunk x = true :=
          ih _ _ _ (curOk_tokVal t) htl
        subst hchunks
        cases b with
        | true =>
          rw [if_pos rfl] at hc
          rcases List.mem_cons.mp hc with rfl | hc2
          · exact curOk_good _ _ hcur
          · exact hgtl c hc2
        | false =>
          rw [if_neg (by simp)] at hc
          exact hgtl c hc

theorem chunkF_good (t : Val) (chunks : List Val)
    (h : chunkF t = some chunks) : ∀ c ∈ chunks, GoodChunk c = true :=
  chunkLoop_good (chars t) (Val.str []) none chunks
    ⟨fun h2 => absurd h2 (by simp), fun _ => ⟨[], rfl⟩⟩ h

theorem lstrip_sublist (l : List Val) :
    ∀ l', lstripChunks l = some l' → l'.Sublist l := by
  induction l with
  | nil =>
    intro l' h
    obtain rfl := Option.some.inj h
    exact List.Sublist.refl []
  | cons c rest ih =>
    intro l' h
    cases c with
    | fmt a =>
      rw [lstripChunks, Option.map_eq_some'] at h
      obtain ⟨l2, hl2, rfl⟩ := h
      exact List.Sublist.cons₂ _ (ih l2 hl2)
    | str s =>
      rw [lstripChunks] at h
      by_cases hws : wsOnly s = true
      · rw [if_pos hws] at h
        exact List.Sublist.cons _ (ih l' h)
      · rw [if_neg hws] at h
        obtain rfl := Option.some.inj h
        exact List.Sublist.refl _
    | swf m => rw [lstripChunks] at h; exact absurd h (by simp)

theorem rstrip_sublist (l l' : List Val) (h : rstripChunks l = some l') :
    l'.Sublist l := by
  rw [rstripChunks, Option.map_eq_some'] at h
  obtain ⟨l2, hl2, rfl⟩ := h
  have := lstrip_sublist l.reverse l2 hl2
  simpa using this.reverse

theorem vlenL_sublist (l l' : List Val) (h : l'.Sublist l) :
    vlenL l' ≤ vlenL l := by
  induction h with
  | slnil => exact le_rfl
  | cons a hsub ih => rw [vlenL_cons]; omega
  | cons₂ a hsub ih => rw [vlenL_cons, vlenL_cons]; omega

theorem chunkMeasure_cons (c : Val) (l : List Val) :
    chunkMeasure (c :: l) = 1 + vlen c + chunkMeasure l := by
  simp [chunkMeasure]

theorem chunkMeasure_append (l m : List Val) :
    chunkMeasure (l ++ m) = chunkMeasure l + chunkMeasure m := by
  simp [chunkMeasure]

theorem chunkMeasure_sublist (l l' : List Val) (h : l'.Sublist l) :
    chunkMeasure l' ≤ chunkMeasure l := by
  induction h with
  | slnil => exact le_rfl
  | cons a hsub ih => rw [chunkMeasure_cons]; omega
  | cons₂ a hsub ih => rw [chunkMeasure_cons, chunkMeasure_cons]; omega

theorem chunkMeasure_pos (c : Val) (l : List Val) :
    1 ≤ chunkMeasure (c :: l) := by
  rw [chunkMeasure_cons]; omega

theorem vlenL_le_chunkMeasure (l : List Val) : vlenL l ≤ chunkMeasure l := by
  induction l with
  | nil => simp [vlenL_nil, chunkMeasure]
  | cons c rest ih => rw [vlenL_cons, chunkMeasure_cons]; omega

theorem pack_spec (w : Int) :
    ∀ (chunks : List Val) (L0 c0 : Int) (line rest : List Val) (L ccl : Int),
      (∀ c ∈ chunks, GoodChunk c = true) →
      packLine w chunks L0 c0 = some (line, rest, L, ccl) →
      chunks = line ++ rest ∧ L = L0 + (vlenL line : Int) ∧
        (L0 ≤ w → L ≤ w) ∧
        (∀ d rest', rest = d :: rest' →
          ccl = (vlen d : Int) ∧ w < L + (vlen d : Int)) := by
  intro chunks
  induction chunks with
  | nil =>
    intro L0 c0 line rest L ccl hg h
    rw [packLine] at h
    simp only [Option.some.injEq, Prod.mk.injEq] at h
    obtain ⟨rfl, rfl, rfl, rfl⟩ := h
    refine ⟨rfl, by rw [vlenL_nil]; omega, fun h => h, ?_⟩
    intro d rest' hd
    exact absurd hd (by simp)
  | cons c rest0 ih =>
    intro L0 c0 line rest L ccl hg h
    have hgc : GoodChunk c = true := hg c (List.mem_cons_self c rest0)
    have hgr : ∀ x ∈ rest0, GoodChunk x = true :=
      fun x hx => hg x (List.mem_cons_of_mem _ hx)
    rw [packLine] at h
    simp only [good_pyLen c hgc] at h
    by_cases hfit : L0 + (vlen c : Int) ≤ w
    · rw [if_pos hfit, Option.map_eq_some'] at h
      obtain ⟨⟨line2, rest2, L2, ccl2⟩, hrec, heq⟩ := h
      obtain ⟨h1, h2, h3, h4⟩ := ih (L0 + (vlen c : Int)) (vlen c : Int)
        line2 rest2 L2 ccl2 hgr hrec
      simp only [Prod.mk.injEq] at heq
      obtain ⟨rfl, rfl, rfl, rfl⟩ := heq
      refine ⟨by rw [h1]; rfl, ?_, fun _ => h3 hfit, h4⟩
      rw [h2, vlenL_cons]
      push_cast
      omega
    · rw [if_neg hfit] at h
      simp only [Option.some.injEq, Prod.mk.injEq] at h
      obtain ⟨rfl, rfl, rfl, rfl⟩ := h
      refine ⟨rfl, by rw [vlenL_nil]; omega, fun h => h, ?_⟩
      intro d rest' hd
      rcases List.cons.inj hd with ⟨rfl, rfl⟩
      constructor
      · rfl
      · omega

theorem reduceAdd_chars : ∀ (rest : List Val) (acc r : Val),
    reduceAdd acc rest = some r → chars r = chars acc ++ charsL rest := by
  intro rest
  induction rest with
  | nil =>
    intro acc r h
    obtain rfl := Option.some.inj h
    simp [charsL]
  | cons v rest2 ih =>
    intro acc r h
    rw [reduceAdd] at h
    cases ha : pyAdd acc v with
    | none => rw [ha] at h; exact absurd h (by simp)
    | some a =>
      rw [ha] at h
      rw [ih a r h, pyAdd_chars acc v a ha, charsL]
      simp [List.append_assoc]

theorem reduceAdd_vlen (rest : List Val) (acc r : Val)
    (h : reduceAdd acc rest = some r) :
    vlen r = vlen acc + vlenL rest := by
  show cnt (chars r) = cnt (chars acc) + cnt (charsL rest)
  rw [reduceAdd_chars rest acc r h, cnt_append]

theorem wrapLoop_terminates (w : Int) (hw : 1 ≤ w) :
    ∀ (n : Nat) (chunks acc : List Val),
      (∀ c ∈ chunks, GoodChunk c = true) →
      chunkMeasure chunks < n →
      ∃ r, wrapLoop w n chunks acc = some r := by
  intro n
  induction n with
  | zero => intro chunks acc _ hm; exact absurd hm (by omega)
  | succ n ih =>
    intro chunks acc hg hm
    cases chunks with
    | nil => exact ⟨.ok acc.reverse, rfl⟩
    | cons c cs =>
      cases hls : lstripChunks (c :: cs) with
      | none => exact ⟨.exn, by simp only [wrapLoop, hls]⟩
      | some chunks1 =>
        have hsub1 : chunks1.Sublist (c :: cs) :=
          lstrip_sublist (c :: cs) chunks1 hls
        have hg1 : ∀ x ∈ chunks1, GoodChunk x = true :=
          fun x hx => hg x (hsub1.subset hx)
        have hm1 : chunkMeasure chunks1 ≤ chunkMeasure (c :: cs) :=
          chunkMeasure_sublist _ _ hsub1
        cases hpk : packLine w chunks1 0 0 with
        | none => exact ⟨.exn, by simp only [wrapLoop, hls, hpk]⟩
        | some quad =>
          obtain ⟨line, rest, L, ccl⟩ := quad
          obtain ⟨hsplit, hL, hLle, hccl⟩ :=
            pack_spec w chunks1 0 0 line rest L ccl hg1 hpk
          have hLw : L ≤ w := hLle (by omega)
          by_cases hforce : w < ccl
          · cases rest with
            | nil =>
              exact ⟨.exn, by simp only [wrapLoop, hls, hpk, if_pos hforce]⟩
            | cons c0 rest' =>
              obtain ⟨hccl0, hwlt⟩ := hccl c0 rest' rfl
              have hgc0 : GoodChunk c0 = true := by
                refine hg1 c0 ?_
                rw [hsplit]
                exact List.mem_append_right _ (List.mem_cons_self _ _)
              have hv0 : 1 ≤ vlen c0 := by omega
              obtain ⟨s, rfl, hslen⟩ := good_str_of_vlen_pos c0 hgc0 hv0
              set d := pyIdx (w - L) s.length with hd
              have hdmin : d = min (w - L).toNat s.length := by
                rw [hd, pyIdx, if_neg (by omega)]
              have hmes : chunkMeasure chunks1 =
                  chunkMeasure line +
                    (1 + vlen (Val.str s) + chunkMeasure rest') := by
                rw [hsplit, chunkMeasure_append, chunkMeasure_cons]
              rw [vlen_str] at hmes hccl0
              have hg2 : ∀ x ∈ Val.str (s.drop d) :: rest',
                  GoodChunk x = true := by
                intro x hx
                rcases List.mem_cons.mp hx with rfl | hx2
                · rfl
                · refine hg1 x ?_
                  rw [hsplit]
                  exact List.mem_append_right _ (List.mem_cons_of_mem _ hx2)
              have hvlm : vlenL line ≤ chunkMeasure line :=
                vlenL_le_chunkMeasure line
              have hm2 : chunkMeasure (Val.str (s.drop d) :: rest') < n := by
                rw [chunkMeasure_cons, vlen_str, List.length_drop]
                omega
              cases hrs : rstripChunks (line ++ [Val.str (s.take d)]) with
              | none =>
                exact ⟨.exn, by
                  simp only [wrapLoop, hls, hpk, if_pos hforce, pySliceTo,
                    pySliceFrom, ← hd, hrs]⟩
              | some line3 =>
                cases line3 with
                | nil =>
                  obtain ⟨r, hr⟩ := ih (Val.str (s.drop d) :: rest')
                    (Val.str [] :: acc) hg2 hm2
                  refine ⟨r, ?_⟩
                  simp only [wrapLoop, hls, hpk, if_pos hforce, pySliceTo,
                    pySliceFrom, ← hd, hrs]
                  exact hr
                | cons c1 cs1 =>
                  cases hra : reduceAdd c1 cs1 with
                  | none =>
                    exact ⟨.exn, by
                      simp only [wrapLoop, hls, hpk, if_pos hforce, pySliceTo,
                        pySliceFrom, ← hd, hrs, hra]⟩
                  | some lineVal =>
                    obtain ⟨r, hr⟩ := ih (Val.str (s.drop d) :: rest')
                      (lineVal :: acc) hg2 hm2
                    refine ⟨r, ?_⟩
                    simp only [wrapLoop, hls, hpk, if_pos hforce, pySliceTo,
                      pySliceFrom, ← hd, hrs, hra]
                    exact hr
          · have hgrest : ∀ x ∈ rest, GoodChunk x = true := by
              intro x hx
              refine hg1 x ?_
              rw [hsplit]
              exact List.mem_append_right _ hx
            have hmrest : chunkMeasure rest < n := by
              have hsum : chunkMeasure chunks1 =
                  chunkMeasure line + chunkMeasure rest := by
                rw [hsplit, chunkMeasure_append]
              have hpos1 : 1 ≤ chunkMeasure (c :: cs) := chunkMeasure_pos c cs
              cases line with
              | nil =>
                cases hrest : rest with
                | nil =>
                  have h0 : chunkMeasure ([] : List Val) = 0 := rfl
                  omega
                | cons c0 rest' =>
                  obtain ⟨hc0, hwlt⟩ := hccl c0 rest' hrest
                  rw [vlenL_nil] at hL
                  exact absurd (show w < ccl by omega) hforce
              | cons l0 ls =>
                have hpl : 1 ≤ chunkMeasure (l0 :: ls) := chunkMeasure_pos l0 ls
                omega
            cases hrs : rstripChunks line with
            | none =>
              exact ⟨.exn, by simp only [wrapLoop, hls, hpk, if_neg hforce, hrs]⟩
            | some line3 =>
              cases line3 with
              | nil =>
                obtain ⟨r, hr⟩ := ih rest (Val.str [] :: acc) hgrest hmrest
                refine ⟨r, ?_⟩
                simp only [wrapLoop, hls, hpk, if_neg hforce, hrs]
                exact hr
              | cons c1 cs1 =>
                cases hra : reduceAdd c1 cs1 with
                | none =>
                  exact ⟨.exn, by
                    simp only [wrapLoop, hls, hpk, if_neg hforce, hrs, hra]⟩
                | some lineVal =>
                  obtain ⟨r, hr⟩ := ih rest (lineVal :: acc) hgrest hmrest
                  refine ⟨r, ?_⟩
                  simp only [wrapLoop, hls, hpk, if_neg hforce, hrs, hra]
                  exact hr

theorem wrapLoop_lines (w : Int) (hw : 1 ≤ w) :
    ∀ (n : Nat) (chunks acc lines : List Val),
      (∀ c ∈ chunks, GoodChunk c = true) →
      (∀ a ∈ acc, (vlen a : Int) ≤ w) →
      wrapLoop w n chunks acc = some (PyRes.ok lines) →
      ∀ x ∈ lines, (vlen x : Int) ≤ w := by
  intro n
  induction n with
  | zero =>
    intro chunks acc lines _ _ h
    exact absurd h (by simp [wrapLoop])
  | succ n ih =>
    intro chunks acc lines hg hacc h
    cases chunks with
    | nil =>
      rw [wrapLoop] at h
      simp only [Option.some.injEq, PyRes.ok.injEq] at h
      subst h
      intro x hx
      exact hacc x (List.mem_reverse.mp hx)
    | cons c cs =>
      cases hls : lstripChunks (c :: cs) with
      | none =>
        simp only [wrapLoop, hls] at h
        exact absurd h (by simp)
      | some chunks1 =>
        have hsub1 : chunks1.Sublist (c :: cs) :=
          lstrip_sublist (c :: cs) chunks1 hls
        have hg1 : ∀ x ∈ chunks1, GoodChunk x = true :=
          fun x hx => hg x (hsub1.subset hx)
        cases hpk : packLine w chunks1 0 0 with
        | none =>
          simp only [wrapLoop, hls, hpk] at h
          exact absurd h (by simp)
        | some quad =>
          obtain ⟨line, rest, L, ccl⟩ := quad
          obtain ⟨hsplit, hL, hLle, hccl⟩ :=
            pack_spec w chunks1 0 0 line rest L ccl hg1 hpk
          have hLw : L ≤ w := hLle (by omega)
          have hgrest : ∀ x ∈ rest, GoodChunk x = true := by
            intro x hx
            refine hg1 x ?_
            rw [hsplit]
            exact List.mem_append_right _ hx
          by_cases hforce : w < ccl
          · cases rest with
            | nil =>
              simp only [wrapLoop, hls, hpk, if_pos hforce] at h
              exact absurd h (by simp)
            | cons c0 rest' =>
              obtain ⟨hccl0, hwlt⟩ := hccl c0 rest' rfl
              have hgc0 : GoodChunk c0 = true := by
                refine hg1 c0 ?_
                rw [hsplit]
                exact List.mem_append_right _ (List.mem_cons_self _ _)
              have hv0 : 1 ≤ vlen c0 := by omega
              obtain ⟨s, rfl, hslen⟩ := good_str_of_vlen_pos c0 hgc0 hv0
              set d := pyIdx (w - L) s.length with hd
              have hdmin : d = min (w - L).toNat s.length := by
                rw [hd, pyIdx, if_neg (by omega)]
              have hg2 : ∀ x ∈ Val.str (s.drop d) :: rest',
                  GoodChunk x = true := by
                intro x hx
                rcases List.mem_cons.mp hx with rfl | hx2
                · rfl
                · exact hgrest x (List.mem_cons_of_mem _ hx2)
              have hline2 : (vlenL (line ++ [Val.str (s.take d)]) : Int) ≤ w := by
                rw [vlenL_append, vlenL_cons, vlenL_nil, vlen_str,
                  List.length_take]
                omega
              cases hrs : rstripChunks (line ++ [Val.str (s.take d)]) with
              | none =>
                simp only [wrapLoop, hls, hpk, if_pos hforce, pySliceTo,
                  pySliceFrom, ← hd, hrs] at h
                exact absurd h (by simp)
              | some line3 =>
                have hsub3 : line3.Sublist (line ++ [Val.str (s.take d)]) :=
                  rstrip_sublist _ _ hrs
                have hlen3 : (vlenL line3 : Int) ≤ w := by
                  have := vlenL_sublist _ _ hsub3
                  omega
                cases line3 with
                | nil =>
                  simp only [wrapLoop, hls, hpk, if_pos hforce, pySliceTo,
                    pySliceFrom, ← hd, hrs] at h
                  refine ih (Val.str (s.drop d) :: rest') (Val.str [] :: acc)
                    lines hg2 ?_ h
                  intro a ha
                  rcases List.mem_cons.mp ha with rfl | ha2
                  · have hz : vlen (Val.str []) = 0 := rfl
                    rw [hz]; omega
                  · exact hacc a ha2
                | cons c1 cs1 =>
                  cases hra : reduceAdd c1 cs1 with
                  | none =>
                    simp only [wrapLoop, hls, hpk, if_pos hforce, pySliceTo,
                      pySliceFrom, ← hd, hrs, hra] at h
                    exact absurd h (by simp)
                  | some lineVal =>
                    simp only [wrapLoop, hls, hpk, if_pos hforce, pySliceTo,
                      pySliceFrom, ← hd, hrs, hra] at h
                    refine ih (Val.str (s.drop d) :: rest') (lineVal :: acc)
                      lines hg2 ?_ h
                    intro a ha
                    rcases List.mem_cons.mp ha with rfl | ha2
                    · have hv := reduceAdd_vlen cs1 c1 a hra
                      rw [show vlen c1 + vlenL cs1 = vlenL (c1 :: cs1) from
                        (vlenL_cons c1 cs1).symm] at hv
                      rw [hv]
                      exact hlen3
                    · exact hacc a ha2
          · have hlinebound : (vlenL line : Int) ≤ w := by omega
            cases hrs : rstripChunks line with
            | none =>
              simp only [wrapLoop, hls, hpk, if_neg hforce, hrs] at h
              exact absurd h (by simp)
            | some line3 =>
              have hsub3 : line3.Sublist line := rstrip_sublist _ _ hrs
              have hlen3 : (vlenL line3 : Int) ≤ w := by
                have := vlenL_sublist _ _ hsub3
                omega
              cases line3 with
              | nil =>
                simp only [wrapLoop, hls, hpk, if_neg hforce, hrs] at h
                refine ih rest (Val.str [] :: acc) lines hgrest ?_ h
                intro a ha
                rcases List.mem_cons.mp ha with rfl | ha2
                · have hz : vlen (Val.str []) = 0 := rfl
                  rw [hz]; omega
                · exact hacc a ha2
              | cons c1 cs1 =>
                cases hra : reduceAdd c1 cs1 with
                | none =>
                  simp only [wrapLoop, hls, hpk, if_neg hforce, hrs, hra] at h
                  exact absurd h (by simp)
                | some lineVal =>
                  simp only [wrapLoop, hls, hpk, if_neg hforce, hrs, hra] at h
                  refine ih rest (lineVal :: acc) lines hgrest ?_ h
                  intro a ha
                  rcases List.mem_cons.mp ha with rfl | ha2
                  · have hv := reduceAdd_vlen cs1 c1 a hra
                    rw [show vlen c1 + vlenL cs1 = vlenL (c1 :: cs1) from
                      (vlenL_cons c1 cs1).symm] at hv
                    rw [hv]
                    exact hlen3
                  · exact hacc a ha2

/-! ## Concrete evaluations settling the purely computational claims -/

/-- C1: the totality claim fails on the code.  Wrapping a rich text made
of two consecutive formatting markers chunks them into a
`StringWithFormatting` chunk (the `FIXME` in `_chunk`), and `_do_strip`
then calls `.strip()` on it, raising `AttributeError`; the empty slice
`SWF('ab')[0:0]` has an empty `_content` tuple, and concatenating a
plain string onto it indexes `self._content[-1]`, raising `IndexError`.
Both are crashes the spec (and the code's own intent) excludes. -/
theorem c1_totality_fails :
    wrapTop (Val.swf [Val.fmt "bold", Val.fmt "bold"]) 5 20 = some PyRes.exn ∧
    getSlice (Val.swf [Val.str ['a', 'b']]) (some 0) (some 0) =
      some (Val.swf []) ∧
    pyAdd (Val.swf []) (Val.str ['x']) = none :=
  ⟨rfl, rfl, rfl⟩

/-- C2: the claim fails on the code: no `InvalidWidth` error exists
anywhere in the source, and `wrap('', 0)` returns `['']` normally
instead of raising. -/
theorem c2_counterexample :
    wrapTop (Val.str []) 0 2 = some (PyRes.ok [Val.str []]) := rfl

/-- C2 (amended): for non-positive width no `InvalidWidth` is raised
because no such error exists; at width 0 the code returns `['']` for
input with no non-whitespace character (for example the empty string),
and on input containing one (for example `'a'`) the force-split makes no
progress (`chunks[0][0:]` is `chunks[0]`) and the wrap loop never
terminates: for every fuel bound it is still running. -/
theorem c2_amended :
    (∀ (n : Nat) (acc : List Val), wrapLoop 0 n [Val.str ['a']] acc = none) ∧
    wrapTop (Val.str []) 0 2 = some (PyRes.ok [Val.str []]) := by
  refine ⟨fun n => ?_, rfl⟩
  induction n with
  | zero => intro acc; rfl
  | succ n ih =>
    intro acc
    have h : wrapLoop 0 (n + 1) [Val.str ['a']] acc =
        wrapLoop 0 n [Val.str ['a']] (Val.str [] :: acc) := rfl
    rw [h]
    exact ih _

/-- C5: the length-additivity claim fails on the code: for
`a = SWF('a')` and `b = Format('bold') + 'x'` (both well-formed, lengths
1 and 1), `a + b` takes the string-fusing branch because `__add__` tests
`other._content[-1]` instead of `other._content[0]`, producing a content
tuple whose first element is a nested `StringWithFormatting`; `len(a+b)`
then raises `TypeError` in `''.join` instead of returning 2.  The
comment in the source ("we want to concat strings at each end") shows
the test of the wrong end is a slip. -/
theorem c5_len_additivity_fails :
    pyLen (Val.swf [Val.str ['a']]) = some 1 ∧
    pyAdd (Val.fmt "bold") (Val.str ['x']) =
      some (Val.swf [Val.fmt "bold", Val.str ['x']]) ∧
    pyLen (Val.swf [Val.fmt "bold", Val.str ['x']]) = some 1 ∧
    pyAdd (Val.swf [Val.str ['a']]) (Val.swf [Val.fmt "bold", Val.str ['x']]) =
      some (Val.swf [Val.swf [Val.str ['a'], Val.fmt "bold"], Val.str ['x']]) ∧
    pyLen (Val.swf [Val.swf [Val.str ['a'], Val.fmt "bold"], Val.str ['x']]) =
      none :=
  ⟨rfl, rfl, rfl, rfl, rfl⟩

/-- C7: the canonical-form claim fails on the code.  Concatenating
`SWF('a')` with `Format('bold') + 'x'` reversed — here
`a = SWF('a')`, `b = SWF('b') + Format('bold')`, both canonical — takes
the plain tuple-concatenation branch (the right operand ends in a
marker), leaving the two plain runs `'a'` and `'b'` adjacent and
unmerged.  Construction from an ordered segment sequence likewise stores
the sequence verbatim without merging. -/
theorem c7_counterexample :
    pyAdd (Val.swf [Val.str ['b']]) (Val.fmt "bold") =
      some (Val.swf [Val.str ['b'], Val.fmt "bold"]) ∧
    pyAdd (Val.swf [Val.str ['a']]) (Val.swf [Val.str ['b'], Val.fmt "bold"]) =
      some (Val.swf [Val.str ['a'], Val.str ['b'], Val.fmt "bold"]) ∧
    noAdjStrL [Val.str ['a'], Val.str ['b'], Val.fmt "bold"] = false :=
  ⟨rfl, rfl, rfl⟩

/-- C4: the marker-preservation claim fails at the empty slice bounds
`i = j = 0` (valid bounds, since `0 ≤ 0 ≤ length`): for
`t = bold + underline + 'a'` both markers appear before visible position
0, but `t[0:0]` keeps only the first one — the loop breaks at the first
enumerated token with cumulative count `0 == stop`, before the second
marker is seen. -/
theorem c4_counterexample :
    getSlice (Val.swf [Val.fmt "bold", Val.fmt "under", Val.str ['a']])
        (some 0) (some 0) = some (Val.swf [Val.fmt "bold"]) ∧
    (takeBeforeCh
        (chars (Val.swf [Val.fmt "bold", Val.fmt "under", Val.str ['a']]))
        0).filter (fun t => !isCh t) = [Tok.mark "bold", Tok.mark "under"] ∧
    chars (Val.swf [Val.fmt "bold"]) = [Tok.mark "bold"] :=
  ⟨rfl, rfl, rfl⟩

/-- C8: the clamping claim fails for a negative stop bound: with
`t = bold + 'ab'`, the slice `t[0:-1]` is empty (the loop can never hit
`i == stop` for negative `stop`, so even `first_format` is dropped),
while the slice with both bounds clamped to `[0, len]`, `t[0:0]`, keeps
the leading marker. -/
theorem c8_counterexample :
    getSlice (Val.swf [Val.fmt "bold", Val.str ['a', 'b']])
        (some 0) (some (-1)) = some (Val.swf []) ∧
    clamp (-1) 2 = 0 ∧
    getSlice (Val.swf [Val.fmt "bold", Val.str ['a', 'b']])
        (some 0) (some 0) = some (Val.swf [Val.fmt "bold"]) ∧
    (Val.swf [] : Val) ≠ Val.swf [Val.fmt "bold"] := by
  refine ⟨rfl, rfl, rfl, ?_⟩
  intro h
  rw [Val.swf.injEq] at h
  exact List.cons_ne_nil _ _ h.symm

/-- C3: for every well-formed rich text and valid bounds
`0 ≤ i ≤ j ≤ length`, the slice `t[i:j]` has visible length (`len`)
exactly `j - i`. -/
theorem c3_slice_length (l : List Val) (hok : RichOK l) (i j : Nat)
    (hij : i ≤ j) (hj : j ≤ vlenL l) :
    ∃ r, getSlice (Val.swf l) (some (i : Int)) (some (j : Int)) =
        some (Val.swf r) ∧ pyLen (Val.swf r) = some (j - i) := by
  rcases Nat.lt_or_ge i j with hlt | hge
  · obtain ⟨r, hr, _, hseg, hcnt⟩ := slice_chars l hok i j hlt hj
    refine ⟨r, hr, ?_⟩
    rw [pyLen_of_segOK r hseg, show vlenL r = cnt (charsL r) from rfl, hcnt]
  · have hij2 : i = j := le_antisymm hij hge
    subst hij2
    have hlen : pyLen (Val.swf l) = some (vlenL l) := pyLen_of_segOK l hok
    have hmin : min ((i : Nat) : Int) ((vlenL l : Nat) : Int) = (i : Int) :=
      min_eq_left (by exact_mod_cast hj)
    have hout : getSlice (Val.swf l) (some (i : Int)) (some (i : Int)) =
        some (Val.swf (sliceLoop i i (charsL l) 0 [] [] [])) := by
      rw [getSlice, hlen, Option.map_some']
      simp only [Option.getD_some, hmin]
      rfl
    refine ⟨_, hout, ?_⟩
    have hall := sliceLoop_allFmt (i : Int) (i : Int) (charsL l) 0 [] le_rfl rfl
    have hstr : strOfContent (sliceLoop i i (charsL l) 0 [] [] []) = some [] :=
      strOfContent_allFmt _ hall
    rw [pyLen, show pyStr (Val.swf (sliceLoop i i (charsL l) 0 [] [] [])) =
      strOfContent (sliceLoop i i (charsL l) 0 [] [] []) from rfl, hstr]
    simp

/-- C3 witness: a concrete slice of `bold + 'ab'`. -/
theorem c3_witness :
    ∃ r, getSlice (Val.swf [Val.fmt "bold", Val.str ['a', 'b']])
        (some ((1 : Nat) : Int)) (some ((2 : Nat) : Int)) =
      some (Val.swf r) ∧ pyLen (Val.swf r) = some (2 - 1) :=
  c3_slice_length [Val.fmt "bold", Val.str ['a', 'b']]
    (by unfold RichOK; decide) 1 2 (by decide) (by decide)

/-- C4 (amended): for a well-formed rich text and bounds
`0 ≤ i < j ≤ length`, the slice stream is exactly the markers appearing
before visible position `i` (all of them, in original order) followed by
the original token window from the `(i+1)`-th through the `j`-th visible
character — so markers strictly inside the window stay at their original
positions relative to its characters.  (For `i = j` the claim fails, see
the counterexample.) -/
theorem c4_amended (l : List Val) (hok : RichOK l) (i j : Nat) (hij : i < j)
    (hj : j ≤ vlenL l) :
    ∃ r, getSlice (Val.swf l) (some (i : Int)) (some (j : Int)) =
        some (Val.swf r) ∧
      charsL r = (takeBeforeCh (charsL l) i).filter (fun t => !isCh t) ++
        takeThroughCh (dropBeforeCh (charsL l) i) (j - i) := by
  obtain ⟨r, hr, hchars, _, _⟩ := slice_chars l hok i j hij hj
  exact ⟨r, hr, hchars⟩

/-- C4 witness: slicing `bold + 'ab'` as `t[0:1]` keeps the marker and
the first character. -/
theorem c4_amended_witness :
    ∃ r, getSlice (Val.swf [Val.fmt "bold", Val.str ['a', 'b']])
        (some ((0 : Nat) : Int)) (some ((1 : Nat) : Int)) =
      some (Val.swf r) ∧
      charsL r = (takeBeforeCh (charsL [Val.fmt "bold", Val.str ['a', 'b']])
          0).filter (fun t => !isCh t) ++
        takeThroughCh
          (dropBeforeCh (charsL [Val.fmt "bold", Val.str ['a', 'b']]) 0) (1 - 0) :=
  c4_amended [Val.fmt "bold", Val.str ['a', 'b']]
    (by unfold RichOK; decide) 0 1 (by decide) (by decide)

/-- C7 (amended): rich texts produced by construction from a plain
string or by any slice have no two adjacent plain-text runs; the
original claim fails for concatenation and for construction from an
arbitrary segment sequence (see the counterexample). -/
theorem c7_amended :
    (∀ s : List Char, ∃ rl, fromString s = Val.swf rl ∧ noAdjStrL rl = true) ∧
    (∀ (t : Val) (a b : Option Int) (r : Val), getSlice t a b = some r →
      ∃ rl, r = Val.swf rl ∧ noAdjStrL rl = true) := by
  constructor
  · intro s
    exact ⟨[Val.str s], rfl, noAdjStrL_singleton _⟩
  · intro t a b r h
    rw [getSlice] at h
    cases hn : pyLen t with
    | none => rw [hn] at h; simp at h
    | some n =>
      rw [hn, Option.map_some'] at h
      obtain rfl := Option.some.inj h
      exact ⟨_, rfl, sliceLoop_noAdj _ _ _ 0 [] [] [] rfl rfl rfl⟩

/-- C7 witness: the slice `SWF('ab')[0:1]` is canonical. -/
theorem c7_amended_witness :
    ∃ rl, (Val.swf [Val.str ['a']] : Val) = Val.swf rl ∧ noAdjStrL rl = true :=
  c7_amended.2 (Val.swf [Val.str ['a', 'b']]) (some 0) (some 1)
    (Val.swf [Val.str ['a']]) rfl

/-- C8 (amended): slicing a well-formed rich text never raises, and for
every integer start bound and every non-negative stop bound the result
equals the slice taken with both bounds clamped to `[0, length]`.  (For
a negative stop bound the result can differ from the clamped slice, see
the counterexample.) -/
theorem c8_amended (l : List Val) (hok : RichOK l) (i j : Int) (hj : 0 ≤ j) :
    ∃ r, getSlice (Val.swf l) (some i) (some j) = some r ∧
      getSlice (Val.swf l) (some (clamp i (vlenL l))) (some (clamp j (vlenL l)))
        = some r := by
  have hlen : pyLen (Val.swf l) = some (vlenL l) := pyLen_of_segOK l hok
  have hg : ∀ a b : Int, getSlice (Val.swf l) (some a) (some b) =
      some (Val.swf (sliceLoop a (min b ((vlenL l : Nat) : Int)) (charsL l)
        0 [] [] [])) := by
    intro a b
    rw [getSlice, hlen, Option.map_some']
    rfl
  have hN0 : (0 : Int) ≤ ((vlenL l : Nat) : Int) := by positivity
  have hstop : min (clamp j (vlenL l)) ((vlenL l : Nat) : Int)
      = min j ((vlenL l : Nat) : Int) := by
    rw [clamp]
    omega
  have hcnt : (cnt (charsL l) : Int) = ((vlenL l : Nat) : Int) := rfl
  have hloop : sliceLoop (clamp i (vlenL l)) (min j ((vlenL l : Nat) : Int))
      (charsL l) 0 [] [] []
      = sliceLoop i (min j ((vlenL l : Nat) : Int)) (charsL l) 0 [] [] [] := by
    rcases lt_trichotomy i 0 with hi | hi | hi
    · rw [show clamp i (vlenL l) = 0 by rw [clamp]; omega]
      exact (sliceLoop_neg_start _ (charsL l) i [] hi (by omega)
        (by rw [hcnt]; omega) (Or.inl rfl)).symm
    · subst hi
      rw [show clamp 0 (vlenL l) = 0 by rw [clamp]; omega]
    · by_cases hiN : i ≤ ((vlenL l : Nat) : Int)
      · rw [show clamp i (vlenL l) = i by rw [clamp]; omega]
      · rw [show clamp i (vlenL l) = ((vlenL l : Nat) : Int) by rw [clamp]; omega]
        exact sliceLoop_start_ge _ (charsL l) _ i 0 [] [] []
          (by rw [hcnt]; omega) (by rw [hcnt]; omega)
  refine ⟨_, hg i j, ?_⟩
  rw [hg (clamp i (vlenL l)) (clamp j (vlenL l)), hstop, hloop]

/-- C8 witness: `t[-5:10]` on `bold + 'ab'` agrees with the clamped
`t[0:2]`. -/
theorem c8_amended_witness :
    ∃ r, getSlice (Val.swf [Val.fmt "bold", Val.str ['a', 'b']])
        (some (-5)) (some 10) = some r ∧
      getSlice (Val.swf [Val.fmt "bold", Val.str ['a', 'b']])
        (some (clamp (-5) (vlenL [Val.fmt "bold", Val.str ['a', 'b']])))
        (some (clamp 10 (vlenL [Val.fmt "bold", Val.str ['a', 'b']])))
        = some r :=
  c8_amended [Val.fmt "bold", Val.str ['a', 'b']] (by unfold RichOK; decide)
    (-5) 10 (by decide)

/-- C10: wrapping `bold("hello") + " " + "world"` at width 5 yields
exactly the two lines the claim describes: the first carries the bold
marker, the visible text `hello` and the auto-appended `normal` marker;
the second is the bare string `world`, whose character stream contains
no marker at all, so rendering it emits no bold escape. -/
theorem c10_wrap_bold_hello_world :
    fmtCall "bold" (Val.str ['h', 'e', 'l', 'l', 'o']) =
      some (Val.swf [Val.fmt "bold", Val.str ['h', 'e', 'l', 'l', 'o'],
        Val.fmt "normal"]) ∧
    pyAdd (Val.swf [Val.fmt "bold", Val.str ['h', 'e', 'l', 'l', 'o'],
        Val.fmt "normal"]) (Val.str [' ']) =
      some (Val.swf [Val.fmt "bold", Val.str ['h', 'e', 'l', 'l', 'o'],
        Val.fmt "normal", Val.str [' ']]) ∧
    pyAdd (Val.swf [Val.fmt "bold", Val.str ['h', 'e', 'l', 'l', 'o'],
        Val.fmt "normal", Val.str [' ']])
        (Val.str ['w', 'o', 'r', 'l', 'd']) =
      some (Val.swf [Val.fmt "bold", Val.str ['h', 'e', 'l', 'l', 'o'],
        Val.fmt "normal", Val.str [' ', 'w', 'o', 'r', 'l', 'd']]) ∧
    wrapTop (Val.swf [Val.fmt "bold", Val.str ['h', 'e', 'l', 'l', 'o'],
        Val.fmt "normal", Val.str [' ', 'w', 'o', 'r', 'l', 'd']]) 5 30 =
      some (PyRes.ok [Val.swf [Val.fmt "bold",
        Val.str ['h', 'e', 'l', 'l', 'o'], Val.fmt "normal"],
        Val.str ['w', 'o', 'r', 'l', 'd']]) ∧
    (chars (Val.str ['w', 'o', 'r', 'l', 'd'])).all isCh = true :=
  ⟨rfl, rfl, rfl, rfl, rfl⟩

/-- C9: for every width at least 1 the wrap loop terminates: some fuel
bound (one more than the chunk measure, i.e. chunk count plus total
visible length) drives `wrap` to a result — a normal return or a raised
exception — because every iteration either consumes a chunk outright or
force-splits one into two chunks whose measure strictly shrinks. -/
theorem c9_wrap_terminates (t : Val) (w : Int) (hw : 1 ≤ w) :
    ∃ fuel r, wrapTop t w fuel = some r := by
  cases hcf : chunkF t with
  | none => exact ⟨1, .exn, by simp only [wrapTop, hcf]⟩
  | some chunks =>
    obtain ⟨r, hr⟩ := wrapLoop_terminates w hw (chunkMeasure chunks + 1)
      chunks [] (chunkF_good t chunks hcf) (by omega)
    exact ⟨chunkMeasure chunks + 1, r, by simp only [wrapTop, hcf]; exact hr⟩

/-- C9 witness: wrapping the plain text `hi` at width 5 reaches a result
within some fuel bound. -/
theorem c9_wrap_terminates_witness :
    (1 : Int) ≤ 5 ∧ ∃ fuel r, wrapTop (Val.str ['h', 'i']) 5 fuel = some r :=
  ⟨by decide, c9_wrap_terminates (Val.str ['h', 'i']) 5 (by decide)⟩

/-- C6: every line of a successful `wrap` at width at least 1 has visible
length at most the width: the packing loop stops before overflowing, a
force-split prefix is cut at exactly the remaining room, and stripping
only ever shortens a line. -/
theorem c6_line_width (t : Val) (w : Int) (fuel : Nat) (lines : List Val)
    (hw : 1 ≤ w) (h : wrapTop t w fuel = some (PyRes.ok lines)) :
    ∀ x ∈ lines, (vlen x : Int) ≤ w := by
  cases hcf : chunkF t with
  | none =>
    simp only [wrapTop, hcf] at h
    exact absurd h (by simp)
  | some chunks =>
    simp only [wrapTop, hcf] at h
    exact wrapLoop_lines w hw fuel chunks [] lines (chunkF_good t chunks hcf)
      (fun a ha => absurd ha (List.not_mem_nil a)) h

/-- C6 witness: wrapping `ab c` at width 2 returns the lines `ab` and
`c`, and the first line's visible length is bounded by the width. -/
theorem c6_line_width_witness :
    wrapTop (Val.str ['a', 'b', ' ', 'c']) 2 30 =
      some (PyRes.ok [Val.str ['a', 'b'], Val.str ['c']]) ∧
    (vlen (Val.str ['a', 'b']) : Int) ≤ 2 :=
  ⟨rfl, c6_line_width (Val.str ['a', 'b', ' ', 'c']) 2 30
    [Val.str ['a', 'b'], Val.str ['c']] (by decide) rfl
    (Val.str ['a', 'b']) (List.mem_cons_self _ _)⟩
